import Mathlib

/-!
Verification development for the dexit declarative integration-testing engine.

The definitions below are a shallow embedding of the TypeScript sources:
  - `src/Util.ts` (the Interpolator `resolveArgs`, plus `promiseWait`),
  - `src/ModuleMgr.ts` (module registry: `register`, `validateModuleObject`,
    `parseCommand`, `getCommand`),
  - `src/Repository.ts` (`buildTestSet`, `validateTaskList`),
  - `src/Runner.ts` (`runTask` / `runTaskList` scheduling, `runTestSet` /
    `run` counter aggregation).

JavaScript values are modelled by the inductive `JVal` (with a separate
`undef` for JavaScript `undefined`); JavaScript numbers that can become
`NaN` through arithmetic with `undefined` are modelled by `JNum`.
-/

/-- Model of a JavaScript (JSON-shaped) runtime value.  `undef` models the
JavaScript value `undefined` (e.g. the result of a failed property access or
of `jsonpath.value` on an unresolved path); `null` models JavaScript `null`.
Objects are modelled as ordered key/value lists (keys assumed distinct). -/
inductive JVal where
  | undef
  | null
  | bool (b : Bool)
  | num (n : Int)
  | str (s : String)
  | arr (elems : List JVal)
  | obj (fields : List (String × JVal))

/-- Characters admitted inside an interpolation token by the regex
`/\$\{([a-zA-Z0-9\.\_\[\]\*@\?><=\!]+)\}/g` of `resolveArgs` (src/Util.ts:62).
`Char.isAlpha`/`Char.isDigit` match the ASCII ranges of the regex class. -/
def tokenChar (c : Char) : Bool :=
  c.isAlpha || c.isDigit || c = '.' || c = '_' || c = '[' || c = ']' ||
  c = '*' || c = '@' || c = '?' || c = '>' || c = '<' || c = '=' || c = '!'

/-- All matches of the token regex over a character list, in left-to-right
order, each returned as the full matched text `${...}` — the model of
`args.match(/\$\{...\}/g)` in src/Util.ts:62.  A match needs `"${"`, one or
more `tokenChar`s (greedy), then `"}"`.  The recursion re-enters at `rest`
(not after the matched text): this is equivalent to the regex engine, since
a match can only begin at `'$'` and neither the matched body (whose
characters satisfy `tokenChar`, which excludes `'$'`) nor the closing
`'}'` contains `'$'`. -/
def scanTokens : List Char → List (List Char)
  | [] => []
  | [_] => []
  | c :: d :: rest =>
    if c = '$' ∧ d = '{' then
      let body := rest.takeWhile tokenChar
      if (rest.dropWhile tokenChar).head? = some '}' ∧ ¬ body.isEmpty then
        ('$' :: '{' :: (body ++ ['}'])) :: scanTokens rest
      else scanTokens rest
    else scanTokens (d :: rest)

/-- First character of a JSONPath member identifier (the fragment of the
external `jsonpath` library modelled by `jpValue`). -/
def identStart (c : Char) : Bool :=
  c.isAlpha || c = '_'

/-- Subsequent character of a JSONPath member identifier. -/
def identChar (c : Char) : Bool :=
  c.isAlpha || c.isDigit || c = '_'

mutual

/-- Is the character list a simple dotted identifier path
(`ident('.'ident)*`)?  This delimits the fragment of JSONPath on which the
external `jsonpath` library is modelled faithfully by `jpValue`: on such
paths `JP.value` performs plain member lookup.  Subscripts, wildcards,
descents and filter expressions — also admitted by the token regex — and
bodies the jsonpath parser rejects with an exception are OUTSIDE this
fragment, and the theorems below are restricted to it. -/
def dottedPath : List Char → Bool
  | [] => false
  | c :: cs => identStart c && dottedRest cs

/-- Continuation of `dottedPath` after the first character of a segment. -/
def dottedRest : List Char → Bool
  | [] => true
  | c :: cs => if c = '.' then dottedPath cs else identChar c && dottedRest cs

end

/-- Does `pat` occur as a prefix of `s`?  (Helper for the model of
`String.prototype.replace` with a string search value.) -/
def startsWithL : List Char → List Char → Bool
  | [], _ => true
  | _ :: _, [] => false
  | p :: ps, c :: cs => p = c && startsWithL ps cs

/-- Model of the ECMAScript `GetSubstitution` processing of a replacement
string: `$$` inserts `$`, `$&` the matched text, `` $` `` (dollar,
backquote, `Char.ofNat 96`) the portion before the match, `$'` (dollar,
apostrophe, `Char.ofNat 39`) the portion after the match; any other `$`
sequence is literal (a string search value has no capture groups, so
`$1`-style references stay literal). -/
def jsGetSubstitution (matched before after : List Char) : List Char → List Char
  | [] => []
  | [c] => [c]
  | c :: d :: rest =>
    if c = '$' then
      if d = '$' then '$' :: jsGetSubstitution matched before after rest
      else if d = '&' then matched ++ jsGetSubstitution matched before after rest
      else if d = Char.ofNat 96 then before ++ jsGetSubstitution matched before after rest
      else if d = Char.ofNat 39 then after ++ jsGetSubstitution matched before after rest
      else '$' :: jsGetSubstitution matched before after (d :: rest)
    else c :: jsGetSubstitution matched before after (d :: rest)

/-- The scan of `String.prototype.replace` with a string search value:
`before` accumulates (reversed) the characters already passed over; at the
first occurrence of `pat` the replacement string is processed by
`jsGetSubstitution` with the match context and spliced in (src/Util.ts:75). -/
def replaceFirstGo (pat repl before : List Char) : List Char → List Char
  | [] => if pat = [] then jsGetSubstitution [] before.reverse [] repl else []
  | c :: cs =>
    if startsWithL pat (c :: cs) then
      jsGetSubstitution pat before.reverse ((c :: cs).drop pat.length) repl ++
        (c :: cs).drop pat.length
    else c :: replaceFirstGo pat repl (c :: before) cs

/-- Model of `res.replace(pat, repl)` for a string search value: replaces
the first occurrence of `pat` in the string by `repl`, processed by the
JavaScript replacement-pattern rules (src/Util.ts:75). -/
def replaceFirstL (pat repl : List Char) (s : List Char) : List Char :=
  replaceFirstGo pat repl [] s

/-- Is the value JavaScript `null` or `undefined`?  (Used by the model of
`Array.prototype.join`, which renders such elements as the empty string.) -/
def isNullish : JVal → Bool
  | .undef => true
  | .null => true
  | _ => false

mutual

/-- Model of the JavaScript `String(value)` coercion for the values of
`JVal` (used by `res.replace(ipols[i], value)` in src/Util.ts:75). -/
def jsToString : JVal → String
  | .undef => "undefined"
  | .null => "null"
  | .bool b => if b then "true" else "false"
  | .num n => toString n
  | .str s => s
  | .arr xs => String.intercalate "," (jsToStringList xs)
  | .obj _ => "[object Object]"

/-- `Array.prototype.join(",")` element coercions: `null`/`undefined`
render as the empty string, other elements via `String(...)`. -/
def jsToStringList : List JVal → List String
  | [] => []
  | v :: vs => (if isNullish v then "" else jsToString v) :: jsToStringList vs

end

/-- `String(value)` where `value` may be `undefined` (the result of
`jsonpath.value` on an unresolved path): `String(undefined) = "undefined"`. -/
def jsToStringU : Option JVal → String
  | none => "undefined"
  | some v => jsToString v

/-- The raw value returned by the exact-token branch of `resolveArgs`
(src/Util.ts:73): an unresolved path returns JavaScript `undefined`. -/
def optJ : Option JVal → JVal
  | none => .undef
  | some v => v

/-- Lookup of a dotted member path inside a value, the model of the
`jsonpath` library's `JP.value(data, "$." + path)` for simple dotted
identifier paths (the only form of path whose behaviour the verified claims
depend on).  A missing member yields `none` (JavaScript `undefined`). -/
def lookupPath : JVal → List String → Option JVal
  | v, [] => some v
  | .obj fs, k :: ks =>
    match fs.lookup k with
    | some v => lookupPath v ks
    | none => none
  | _, _ :: _ => none

/-- Splits a character list at a separator character, the model of the
semantics of splitting a JavaScript string on a one-character separator
(`"a..b".split(".") = ["a", "", "b"]`, `"".split(".") = [""]`). -/
def splitChar (sep : Char) : List Char → List (List Char)
  | [] => [[]]
  | c :: cs =>
    match splitChar sep cs with
    | [] => [[]]
    | seg :: rest => if c = sep then [] :: seg :: rest else (c :: seg) :: rest

/-- Model of `JP.value(data, "$." + body)` (src/Util.ts:69-70) for token
bodies satisfying `dottedPath` — simple dotted identifier paths, on which
the external `jsonpath` library performs plain member lookup: the body is
split on `'.'` and looked up member-wise, `none` modelling `undefined`
(unresolved path).  Outside that fragment (subscripts, wildcards, invalid
bodies) the library behaves differently, so every theorem consulting
`jpValue` carries a `dottedPath` hypothesis. -/
def jpValue (data : JVal) (body : List Char) : Option JVal :=
  lookupPath data ((splitChar '.' body).map fun k => String.mk k)

/-- The interior of a matched token: `ipols[i].substr(2, ipols[i].length - 3)`
(src/Util.ts:69) — drop the leading `"${"` and the trailing `"}"`. -/
def tokenBody (tok : List Char) : List Char :=
  (tok.drop 2).dropLast

/-- The per-token loop of the string branch of `resolveArgs`
(src/Util.ts:65-79): for each matched token, resolve its JSONPath body
against `data`; if the whole argument string equals the token, return the
raw value; otherwise replace the first occurrence of the token in the
accumulator by the `String(...)` coercion of the value. -/
def resolveLoop (data : JVal) (args : List Char) :
    List (List Char) → List Char → JVal
  | [], res => .str (String.mk res)
  | tok :: toks, res =>
    let value := jpValue data (tokenBody tok)
    if args = tok then optJ value
    else resolveLoop data args toks (replaceFirstL tok (jsToStringU value).data res)

/-- The string branch of `resolveArgs` (src/Util.ts:60-81): match all
interpolation tokens; if there are none, return the string unchanged;
otherwise run the replacement loop. -/
def resolveArgsStr (data : JVal) (s : String) : JVal :=
  match scanTokens s.data with
  | [] => .str s
  | toks => resolveLoop data s.data toks s.data

mutual

/-- Model of `resolveArgs(data, args)` (src/Util.ts:57-109), the
Interpolator: strings are interpolated token-wise, arrays element-wise,
objects value-wise, and all other values returned unchanged. -/
def resolveArgs (data : JVal) : JVal → JVal
  | .str s => resolveArgsStr data s
  | .arr xs => .arr (resolveArgsList data xs)
  | .obj fs => .obj (resolveArgsFields data fs)
  | v => v

/-- Element-wise interpolation of an array (src/Util.ts:84-91). -/
def resolveArgsList (data : JVal) : List JVal → List JVal
  | [] => []
  | v :: vs => resolveArgs data v :: resolveArgsList data vs

/-- Value-wise interpolation of an object (src/Util.ts:94-101). -/
def resolveArgsFields (data : JVal) : List (String × JVal) → List (String × JVal)
  | [] => []
  | (k, v) :: fs => (k, resolveArgs data v) :: resolveArgsFields data fs

end

/-! ### Module registry (src/ModuleMgr.ts, provided as src/unnamed/part_002) -/

/-- A compiled Ajv validator, modelled by the schema it was compiled from.
The Ajv library itself is external to the repository; its validation verdict
is treated as an oracle parameter where it is consulted (see
`validateTask`). -/
structure Validator where
  schema : JVal

/-- Model of `this.ajv.compile(schema)` (part_002:101,104): opaque
compilation of a JSON schema into a validator. -/
def ajvCompile (s : JVal) : Validator :=
  ⟨s⟩

/-- Presence/shape of a function-valued field of a command object, as
distinguished by `validateModuleObject`: absent (or falsy), present but not
a function, or a function. -/
inductive JFn where
  | missing
  | notFn
  | fn
  deriving DecidableEq

/-- Model of the `ITestCommand` interface (part_002:15-41).  `argsValidatorF`
and `expectValidatorF` model the reserved `_argsValidator` /
`_expectValidator` fields.  The behaviour of the `run`/`expect`/`getLabel`
functions is irrelevant to registration; only their presence/shape is
modelled here (the Runner model abstracts a command's run-time behaviour
separately, see `RTask`). -/
structure JCommand where
  description : Option String := none
  argsSchema : Option JVal := none
  expectSchema : Option JVal := none
  argsValidatorF : Option Validator := none
  expectValidatorF : Option Validator := none
  runF : JFn := .fn
  expectF : JFn := .missing
  getLabelF : JFn := .missing

/-- Model of the `ITestModule` interface (part_002:46-58); commands are an
ordered key/command list (a JavaScript object keyed by command name). -/
structure JModule where
  name : String
  description : Option String := none
  defaultsSchema : Option JVal := none
  commands : List (String × JCommand)

/-- The registry state: `ModuleMgr.modules` (part_002:66), an object keyed
by module name. -/
structure ModulesState where
  modules : List (String × JModule)

/-- Compilation of one command during `register` (part_002:96-106): a
present (truthy) `argsSchema`/`expectSchema` is compiled and cached on the
command; an absent schema leaves the validator field untouched. -/
def registerCompileCmd (cmd : JCommand) : JCommand :=
  { cmd with
    argsValidatorF :=
      match cmd.argsSchema with
      | some s => some (ajvCompile s)
      | none => cmd.argsValidatorF
    expectValidatorF :=
      match cmd.expectSchema with
      | some s => some (ajvCompile s)
      | none => cmd.expectValidatorF }

/-- Model of `ModuleMgr.register` (part_002:89-111): throws if a module of
the same name is already registered, otherwise compiles each command's
schemas into cached validators and assigns the module. -/
def register (st : ModulesState) (mod : JModule) : Except String ModulesState :=
  if (st.modules.lookup mod.name).isSome then
    .error "Module is already registered."
  else
    .ok ⟨st.modules ++
      [(mod.name,
        { mod with commands := mod.commands.map fun kc => (kc.1, registerCompileCmd kc.2) })]⟩

/-- Per-command checks of `validateModuleObject` (part_002:135-163), in
source order.  The `cmd instanceof Object` check is granted by typing. -/
def validateCommandObject (cmd : JCommand) : Except String Unit :=
  if cmd.description.getD "" = "" then
    .error "command definition must has description property"
  else if cmd.runF = .missing then
    .error "command definition must has run property"
  else if cmd.runF = .notFn then
    .error "command definition property run must be a function"
  else if cmd.expectF = .notFn then
    .error "command definition property expect must be a function"
  else if cmd.getLabelF = .notFn then
    .error "command definition property getLabel must be a function"
  else if cmd.argsValidatorF.isSome then
    .error "command cannot has _argsValidator property because it is reserved"
  else if cmd.expectValidatorF.isSome then
    .error "command cannot has _expectValidator property because it is reserved"
  else
    .ok ()

/-- The command loop of `validateModuleObject` (part_002:135-163): the first
failing command aborts with its error. -/
def validateCommands : List (String × JCommand) → Except String Unit
  | [] => .ok ()
  | (_, cmd) :: rest => do
    validateCommandObject cmd
    validateCommands rest

/-- Model of `ModuleMgr.validateModuleObject` (part_002:119-165).  The
`mod instanceof Object` and `commands instanceof Object` checks are granted
by typing; a falsy `name` is an empty string in the typed model. -/
def validateModuleObject (mod : JModule) : Except String Unit :=
  if mod.name = "" then
    .error "module definition must has a name property"
  else
    validateCommands mod.commands

/-- Model of `ModuleMgr.load` (part_002:200-207): validate the module
object, then register it. -/
def load (st : ModulesState) (mod : JModule) : Except String ModulesState := do
  validateModuleObject mod
  register st mod

/-- Is an `Except` value a success? -/
def isOkE {ε α : Type} : Except ε α → Bool
  | .ok _ => true
  | .error _ => false

/-- The result object of `parseCommand` (part_002:268-277): `path[0]` and
`path[1]` of the split, either of which is `undefined` (`none`) when the
split produced fewer segments. -/
structure ParsedCommand where
  module : Option String
  command : Option String
  deriving DecidableEq

/-- `id.split(sep)` for a one-character separator, returning Lean strings. -/
def jsSplit (sep : Char) (s : String) : List String :=
  (splitChar sep s.data).map fun l => String.mk l

/-- Model of `ModuleMgr.parseCommand` (part_002:268-277):
`id.split(".", 2)` — the JavaScript `limit` argument truncates the split
result to at most two segments — and return `{module: path[0],
command: path[1]}`. -/
def parseCommand (id : String) : ParsedCommand :=
  let path := (jsSplit '.' id).take 2
  ⟨path.get? 0, path.get? 1⟩

/-- Model of `ModuleMgr.getCommand` (part_002:284-294): split the id with
limit 2, look up the module by `path[0]`, return null when absent, else
`mod.commands[path[1]] || null`.  An `undefined` index is coerced to the
property key `"undefined"` by JavaScript. -/
def getCommand (st : ModulesState) (id : String) : Option JCommand :=
  let path := (jsSplit '.' id).take 2
  match st.modules.lookup ((path.get? 0).getD "undefined") with
  | none => none
  | some mod => mod.commands.lookup ((path.get? 1).getD "undefined")

/-! ### Repository task-list validation (src/Repository.ts:126-225) -/

/-- The fields of an `ITestTask` consulted by Repository validation. -/
structure VTask where
  id : Option String := none
  doCmd : String := ""
  args : JVal := .obj []
  runBeforeAsync : Option String := none

/-- Model of `Repository.validateTask` (Repository.ts:126-173), returning
the list of error messages pushed for this task.  `ajv` is the oracle for
the external Ajv validation verdict of a compiled validator on a value.
Note the source applies the expect validator to `task.args` as well
(Repository.ts:159). -/
def validateTask (ajv : JVal → JVal → Bool) (st : ModulesState) (task : VTask) :
    List String :=
  match getCommand st task.doCmd with
  | none => ["Command not found."]
  | some cmd =>
    (match cmd.argsValidatorF with
     | some v => if ajv v.schema task.args then [] else ["Invalid args."]
     | none => []) ++
    (match cmd.expectValidatorF with
     | some v => if ajv v.schema task.args then [] else ["Invalid expect."]
     | none => [])

/-- Does some task of the list carry the given id?
(`tasks[j].id === tasks[i].runBeforeAsync`, Repository.ts:201-205). -/
def hasTaskWithId (tasks : List VTask) (target : String) : Bool :=
  tasks.any fun t => t.id == some target

/-- The loop of `Repository.validateTaskList` (Repository.ts:182-225): for
each task, validate it; a task failing validation is skipped (`continue`)
before the dependency check; otherwise a `runBeforeAsync` naming no peer id
adds an error. -/
def validateTaskListAux (ajv : JVal → JVal → Bool) (st : ModulesState)
    (all : List VTask) : List VTask → List String
  | [] => []
  | t :: rest =>
    let errs := validateTask ajv st t
    (if errs ≠ [] then errs
     else
       match t.runBeforeAsync with
       | some r =>
         if hasTaskWithId all r then [] else ["Task for runBeforeAsync was not found."]
       | none => []) ++
    validateTaskListAux ajv st all rest

/-- Model of `Repository.validateTaskList` (Repository.ts:182-225): all
error messages accumulated for a task list. -/
def validateTaskList (ajv : JVal → JVal → Bool) (st : ModulesState)
    (tasks : List VTask) : List String :=
  validateTaskListAux ajv st tasks tasks

/-! ### Repository build (src/Repository.ts:88-118, 327-372) -/

/-- The fields of a test-set schema (`ITestSet`) consulted by
`buildTestSet`.  Tasks are identified opaquely by labels; `none` models an
absent optional field (the source reads `... || []`).  Fields not involved
in any verified claim (defaults, params, beforeAll/afterAll, tests) are
elided. -/
structure SetSchemaB where
  tags : List String := []
  beforeEach : Option (List String) := none
  afterEach : Option (List String) := none
  skip : Bool := false

/-- Model of `ITestSetEntry` as the Repository builds it (Interfaces.ts:264-279,
restricted to the fields the verified claims consult).  `schema = none`
models a placeholder node created by `resolveSetEntry` (Repository.ts:94-110)
that no document has claimed; such nodes carry `skip = null` (`none`) and
empty task lists.  Children are an ordered list (object keyed by local
name; keys are irrelevant to the claims). -/
inductive SetEntryB where
  | mk (schema : Option SetSchemaB)
       (tags : List String)
       (beforeEachTasks : List String)
       (afterEachTasks : List String)
       (skip : Option Bool)
       (children : List SetEntryB)

/-- The `schema` field of a set entry. -/
def SetEntryB.schema : SetEntryB → Option SetSchemaB
  | .mk s _ _ _ _ _ => s

/-- The `tags` field of a set entry. -/
def SetEntryB.tags : SetEntryB → List String
  | .mk _ t _ _ _ _ => t

/-- The `beforeEachTasks` field of a set entry. -/
def SetEntryB.beforeEachTasks : SetEntryB → List String
  | .mk _ _ be _ _ _ => be

/-- The `afterEachTasks` field of a set entry. -/
def SetEntryB.afterEachTasks : SetEntryB → List String
  | .mk _ _ _ ae _ _ => ae

/-- The `skip` field of a set entry (`none` models JavaScript `null`). -/
def SetEntryB.skip : SetEntryB → Option Bool
  | .mk _ _ _ _ sk _ => sk

/-- The `children` field of a set entry. -/
def SetEntryB.children : SetEntryB → List SetEntryB
  | .mk _ _ _ _ _ ch => ch

instance : Inhabited SetEntryB :=
  ⟨.mk none [] [] [] none []⟩

/-- JavaScript `p || own` for the resolved skip flag
(`parentEntry.skip || setEntry.schema.skip`, Repository.ts:348), where the
parent flag may be `null`. -/
def jsOrB (p : Option Bool) (own : Bool) : Option Bool :=
  if p = some true then some true else some own

mutual

/-- Model of `Repository.buildTestSet` (Repository.ts:327-372): when both a
parent and a claimed schema are present, merge tags and the accumulated
before/after-each lists and resolve `skip`; placeholder nodes (and the root
call with a null parent) are left untouched; then recurse into the
children, passing the updated entry as the parent. -/
def buildTestSet (parent : Option SetEntryB) : SetEntryB → SetEntryB
  | .mk sch tags be ae sk ch =>
    match parent, sch with
    | some p, some s =>
      let tags' := p.tags ++ s.tags
      let be' := p.beforeEachTasks ++ s.beforeEach.getD []
      let ae' := p.afterEachTasks ++ s.afterEach.getD []
      let sk' := jsOrB p.skip s.skip
      .mk sch tags' be' ae' sk' (buildChildren (.mk sch tags' be' ae' sk' ch) ch)
    | _, _ =>
      .mk sch tags be ae sk (buildChildren (.mk sch tags be ae sk ch) ch)

/-- The child recursion of `buildTestSet` (Repository.ts:369-371). -/
def buildChildren (parent : SetEntryB) : List SetEntryB → List SetEntryB
  | [] => []
  | c :: cs => buildTestSet (some parent) c :: buildChildren parent cs

end

mutual

/-- The accumulated-hook invariant over a built tree: every child entry
that carries a schema has `beforeEachTasks` (resp. `afterEachTasks`) equal
to its parent's list concatenated with its own schema's list; entries
without a schema (placeholders) are unconstrained here (see the C6
theorems). -/
def InheritOK : SetEntryB → Prop
  | .mk _ _ be ae _ ch => InheritChildren be ae ch

/-- The per-child condition of `InheritOK`. -/
def InheritChildren (pbe pae : List String) : List SetEntryB → Prop
  | [] => True
  | c :: cs =>
    (match c.schema with
     | some s =>
       c.beforeEachTasks = pbe ++ s.beforeEach.getD [] ∧
       c.afterEachTasks = pae ++ s.afterEach.getD []
     | none => True) ∧
    InheritOK c ∧ InheritChildren pbe pae cs

end

/-- A concrete repository tree: a claimed set with `beforeEach = [t1]`
whose child is an unclaimed placeholder node (as created by
`resolveSetEntry` for an intermediate path segment). -/
def cexRoot : SetEntryB :=
  .mk none [] [] [] (some false)
    [.mk (some { beforeEach := some ["t1"] }) [] [] [] none
      [.mk none [] [] [] none []]]

/-- A registry holding a module `http` with a single command `get`
(exercising command resolution at concrete inputs). -/
def httpState : ModulesState :=
  ⟨[("http", { name := "http", commands := [("get", { description := some "d" })] })]⟩

/-- A registry whose module `m` registers a command literally named
`"a.b"`: the claim's remainder-after-first-dot reading would resolve
`getCommand "m.a.b"` to it. -/
def dottedCmdState : ModulesState :=
  ⟨[("m", { name := "m", commands := [("a.b", { description := some "d" })] })]⟩

/-- A module whose command carries the reserved `_argsValidator` field
(pre-set), used to probe the reserved-field rejection. -/
def reservedFieldModule : JModule :=
  { name := "m",
    commands := [("c", { description := some "d", argsValidatorF := some ⟨.obj []⟩ })] }

/-! ### Runner task-list scheduling (src/Runner.ts:55-251) -/

/-- A task of a task list as the Runner's scheduler consumes it
(src/Runner.ts:151-251).  `id`, `runBeforeAsync` and `continueOnError` are
the `ITestTask` fields the scheduler reads.  The remaining fields abstract
the black-box behaviour of the task's command for one execution:
`validationErrors` are the errors collected from the command's
`validateArgs`/`validateExpect` hooks (src/Runner.ts:79-103),
`callsNotifyReady` says whether `cmd.run` ever invokes its `onReady`
callback (src/Runner.ts:114), and `runErrors` are the errors the
run/expect/set phases leave on the report. -/
structure RTask where
  id : Option String := none
  runBeforeAsync : Option String := none
  continueOnError : Bool := false
  validationErrors : List String := []
  callsNotifyReady : Bool := true
  runErrors : List String := []
  deriving DecidableEq

/-- Is the ready latch of `runTask` ever resolved for this task?  The latch
is resolved explicitly on the validation-error path (src/Runner.ts:100) and
otherwise only if the command's `run` invokes `onReady`
(src/Runner.ts:114); no other code path resolves it — in particular it is
NOT resolved when the result future completes. -/
def taskLatchResolved (t : RTask) : Bool :=
  decide (t.validationErrors ≠ []) || t.callsNotifyReady

/-- The `errors` list of the task's final `ITestTaskReport`: the validation
errors when validation failed (the task stops there, src/Runner.ts:88-103),
otherwise the errors of the later phases. -/
def taskReportErrors (t : RTask) : List String :=
  if t.validationErrors ≠ [] then t.validationErrors else t.runErrors

/-- One value of the scheduler's `taskMap` (src/Runner.ts:154):
`{task, runOrder, waitOrder}` (the `completitionPromise` is modelled by the
execution state below). -/
structure MapEntry where
  task : RTask
  runOrder : Int
  waitOrder : Int
  deriving DecidableEq

/-- In-place update of the value at an existing key of a JavaScript object
modelled as an ordered key/value list (the key keeps its position). -/
def jsObjSet (m : List (String × MapEntry)) (k : String) (v : MapEntry) :
    List (String × MapEntry) :=
  m.map fun kv => if kv.1 = k then (k, v) else kv

/-- Assignment `obj[k] = v` on a JavaScript object modelled as an ordered
key/value list: an existing key keeps its (first-insertion) position but
receives the new value; a fresh key is appended. -/
def jsObjUpsert (m : List (String × MapEntry)) (k : String) (v : MapEntry) :
    List (String × MapEntry) :=
  if (m.lookup k).isSome then jsObjSet m k v else m ++ [(k, v)]

/-- The synthetic key used for a task without an explicit id:
``​`$_${i}_#`​`` (src/Runner.ts:162). -/
def syntheticId (i : Nat) : String :=
  "$_" ++ toString i ++ "_#"

/-- The key under which task `t` at position `i` is put into the task map
(src/Runner.ts:162): `tasks[i].id || $_i_#`. -/
def taskKey (i : Nat) (t : RTask) : String :=
  match t.id with
  | some s => if s = "" then syntheticId i else s
  | none => syntheticId i

/-- The task-map construction loop (src/Runner.ts:160-167): tasks are
inserted in positional order with `runOrder = i*1000` and
`waitOrder = i*1000 + 1`; a duplicate key silently overwrites the earlier
entry. -/
def buildTaskMapAux (i : Nat) (m : List (String × MapEntry)) :
    List RTask → List (String × MapEntry)
  | [] => m
  | t :: ts =>
    buildTaskMapAux (i + 1)
      (jsObjUpsert m (taskKey i t) ⟨t, (i : Int) * 1000, (i : Int) * 1000 + 1⟩) ts

/-- The scheduler's `taskMap` for a task list (src/Runner.ts:160-167). -/
def buildTaskMap (tasks : List RTask) : List (String × MapEntry) :=
  buildTaskMapAux 0 [] tasks

/-- The association pair the task map holds for the task at position `i`
when no duplicate id intervenes (characterization helper for
`buildTaskMap`). -/
def enumMapF (it : Nat × RTask) : String × MapEntry :=
  (taskKey it.1 it.2, ⟨it.2, (it.1 : Int) * 1000, (it.1 : Int) * 1000 + 1⟩)

/-- One iteration of the dependency-resolution loop (src/Runner.ts:170-175)
for the key `k`: a task with `runBeforeAsync = r` gets
`runOrder = taskMap[r].runOrder - 1`, reading `r`'s CURRENT entry.  A
missing target makes the property access throw (`none`). -/
def resolveDepsStep (m : List (String × MapEntry)) (k : String) :
    Option (List (String × MapEntry)) :=
  match m.lookup k with
  | none => none
  | some e =>
    match e.task.runBeforeAsync with
    | none => some m
    | some r =>
      match m.lookup r with
      | none => none
      | some re =>
        some (jsObjSet m k { e with runOrder := re.runOrder - 1 })

/-- The dependency-resolution loop (src/Runner.ts:170-175): iterate the map
keys in insertion order, threading the updates. -/
def resolveDeps (m : List (String × MapEntry)) :
    Option (List (String × MapEntry)) :=
  (m.map Prod.fst).foldlM resolveDepsStep m

/-- A step of the execution plan (src/Runner.ts:155): either a `runTask`
step or a `waitFor` step, with its sort priority. -/
structure PlanStep where
  runTask : Option String := none
  waitFor : Option String := none
  order : Int
  deriving DecidableEq

/-- The plan-construction loop (src/Runner.ts:178-190): for each map key in
order, push a run step (priority `runOrder`) and a wait step (priority
`waitOrder`). -/
def buildPlan (m : List (String × MapEntry)) : List PlanStep :=
  m.flatMap fun kv =>
    [{ runTask := some kv.1, order := kv.2.runOrder },
     { waitFor := some kv.1, order := kv.2.waitOrder }]

/-- Stable insertion of a step into a sorted plan prefix: the new step goes
after every existing step whose order is ≤ its own. -/
def planInsert (x : PlanStep) : List PlanStep → List PlanStep
  | [] => [x]
  | y :: ys => if x.order < y.order then x :: y :: ys else y :: planInsert x ys

/-- Model of `executionPlan.sort((a, b) => ...)` (src/Runner.ts:192):
JavaScript's `Array.prototype.sort` is stable, so the plan is the stable
ascending sort by `order`. -/
def planSort (l : List PlanStep) : List PlanStep :=
  l.foldl (fun acc x => planInsert x acc) []

/-- Outcome of the coordinator loop (src/Runner.ts:195-251).  `ok` carries
the task reports (key and report errors, in wait-step order) and the
`errorCount`; `deadlock` means the coordinator is blocked forever awaiting
a ready latch that is never resolved (`await ready.promise`,
src/Runner.ts:214); `crash` models the `TypeError` thrown when a wait step
runs before its task was started (`completitionPromise` still null). -/
inductive RunOutcome where
  | ok (reports : List (String × List String)) (errorCount : Nat)
  | deadlock (reports : List (String × List String))
  | crash
  deriving DecidableEq

/-- The coordinator loop over the sorted plan (src/Runner.ts:195-243): a
run step starts the task and blocks on its ready latch; a wait step awaits
the task's report, counts it as errored when its error list is non-empty,
sets the termination flag when additionally `continueOnError` is false,
and appends the report; a set termination flag breaks out of the loop. -/
def execPlan (m : List (String × MapEntry)) (started : List String)
    (reports : List (String × List String)) (errorCount : Nat) :
    List PlanStep → RunOutcome
  | [] => .ok reports errorCount
  | step :: rest =>
    match step.runTask with
    | some k =>
      match m.lookup k with
      | none => .crash
      | some e =>
        if taskLatchResolved e.task then execPlan m (k :: started) reports errorCount rest
        else .deadlock reports
    | none =>
      match step.waitFor with
      | some k =>
        if k ∈ started then
          match m.lookup k with
          | none => .crash
          | some e =>
            let errs := taskReportErrors e.task
            if errs ≠ [] then
              if e.task.continueOnError then
                execPlan m started (reports ++ [(k, errs)]) (errorCount + 1) rest
              else .ok (reports ++ [(k, errs)]) (errorCount + 1)
            else execPlan m started (reports ++ [(k, errs)]) errorCount rest
        else .crash
      | none => execPlan m started reports errorCount rest

/-- Model of `Runner.runTaskList` (src/Runner.ts:151-251) end to end:
build the task map, resolve dependencies (`none` on a missing
`runBeforeAsync` target, which throws in the source), build and sort the
plan, and run the coordinator loop. -/
def runTaskListModel (tasks : List RTask) : Option RunOutcome :=
  match resolveDeps (buildTaskMap tasks) with
  | none => none
  | some m => some (execPlan m [] [] 0 (planSort (buildPlan m)))

/-! ### Runner counter aggregation (src/Runner.ts:314-484) -/

/-- A JavaScript number that may be `NaN` (addition with `undefined`
produces `NaN`, and `NaN` is absorbing). -/
inductive JNum where
  | nan
  | int (n : Int)
  deriving DecidableEq

/-- JavaScript `+` on numbers, with `NaN` absorbing. -/
def jadd : JNum → JNum → JNum
  | .int a, .int b => .int (a + b)
  | _, _ => .nan

/-- JavaScript `x + undefined = NaN`: the model of
`skippedCount += entry.testCount` where `testCount` is a field the
Repository never assigns on an `ITestSetEntry` (it does not even appear in
the interface, Interfaces.ts:264-279), so the read yields `undefined`. -/
def jaddUndef : JNum → JNum :=
  fun _ => .nan

/-- A resolved test as the Runner consumes it: its `skip` flag, and (as an
abstraction of the three task-list runs inside `runTest`,
src/Runner.ts:259-306) the `errorCount` of the `ITestReport` that running
it produces. -/
structure RTestE where
  skip : Bool := false
  errorCount : Nat := 0
  deriving DecidableEq

/-- A resolved test-set entry as the Runner consumes it, restricted to the
fields read by `runTestSet`/`run`: the resolved `skip` flag (its JavaScript
truthiness), the error counts produced by running the `beforeAll` and
`afterAll` task lists (abstracting those runs), the tests and the child
sets.  Note there is NO `testCount` field: the source reads one
(src/Runner.ts:379,453) but neither the interface nor the Repository ever
provides it, so the read yields `undefined`. -/
inductive RSetE where
  | mk (skip : Bool) (beforeAllErrors afterAllErrors : Nat)
       (tests : List RTestE) (children : List RSetE)

/-- The `skip` flag of a runner set entry. -/
def RSetE.skip : RSetE → Bool
  | .mk sk _ _ _ _ => sk

/-- The counters of an `ITestSetReport` (Interfaces.ts:343-352). -/
structure SetReport where
  testCount : JNum
  skippedCount : JNum
  errorCount : Nat
  deriving DecidableEq

mutual

/-- Model of the counter aggregation of `Runner.runTestSet`
(src/Runner.ts:314-419): `testCount` starts at the number of own tests;
when the before-all run had no errors, skipped tests increment
`skippedCount`, executed tests contribute their error counts, a skipped
child adds the entry's (never assigned, hence `undefined`) `testCount`
field to `skippedCount` — producing `NaN` — and executed children recurse
and merge their report counters; the after-all errors are always added. -/
def runTestSetModel : RSetE → SetReport
  | .mk _ bErr aErr tests children =>
    if bErr = 0 then
      let skipped₁ :=
        tests.foldl (fun acc t => if t.skip then jadd acc (.int 1) else acc) (.int 0)
      let testErrs :=
        tests.foldl (fun acc t => if t.skip then acc else acc + t.errorCount) 0
      let skipped₂ :=
        children.foldl (fun acc c => if c.skip then jaddUndef acc else acc) skipped₁
      let childReports := runChildSets children
      { testCount :=
          childReports.foldl (fun acc r => jadd acc r.testCount)
            (.int (tests.length : Int))
        skippedCount :=
          childReports.foldl (fun acc r => jadd acc r.skippedCount) skipped₂
        errorCount :=
          bErr + testErrs +
            childReports.foldl (fun acc r => acc + r.errorCount) 0 + aErr }
    else
      { testCount := .int (tests.length : Int), skippedCount := .int 0,
        errorCount := bErr + aErr }

/-- The child-set loop of `runTestSet` (src/Runner.ts:372-389): skipped
children produce no report (their skip accounting is in `runTestSetModel`);
the others recurse. -/
def runChildSets : List RSetE → List SetReport
  | [] => []
  | c :: cs =>
    if c.skip then runChildSets cs else runTestSetModel c :: runChildSets cs

end

/-- The counters of the `ICompleteReport` (Interfaces.ts:357-363). -/
structure CompleteReportC where
  testCount : JNum
  skippedCount : JNum
  errorCount : Nat
  deriving DecidableEq

/-- Model of the counter aggregation of `Runner.run` (src/Runner.ts:426-484):
a skipped root-level set adds its (undefined) `testCount` entry field to
`skippedCount` — producing `NaN` — the others run and their report counters
are aggregated. -/
def runModel (sets : List RSetE) : CompleteReportC :=
  let skipped₀ :=
    sets.foldl (fun acc s => if s.skip then jaddUndef acc else acc) (.int 0)
  let reports := runChildSets sets
  { testCount := reports.foldl (fun acc r => jadd acc r.testCount) (.int 0)
    skippedCount := reports.foldl (fun acc r => jadd acc r.skippedCount) skipped₀
    errorCount := reports.foldl (fun acc r => acc + r.errorCount) 0 }

mutual

/-- Modelled from the spec: the transitive test count of a test-set entry,
`tests.length + Σ children.testCount` — the quantity spec §9 says a
(re)implementation must compute during `build` and that the claims' counter
identity refers to; the reference Repository never computes it. -/
def specTestCount : RSetE → Nat
  | .mk _ _ _ tests children => tests.length + specTestCountList children

/-- Sum of `specTestCount` over a list of child sets. -/
def specTestCountList : List RSetE → Nat
  | [] => 0
  | c :: cs => specTestCount c + specTestCountList cs

end

/-- The root-level input refuting the counter identity: a single skipped
root set containing one (non-skipped) test and no hook errors. -/
def cexSkippedSet : RSetE :=
  .mk true 0 0 [{ skip := false, errorCount := 0 }] []

/-- A non-skipped parent set whose only child is the skipped set above
(the nested variant of the skipped-child accounting). -/
def cexParentSet : RSetE :=
  .mk false 0 0 [] [cexSkippedSet]

/-! ## Theorems -/

/-! ### Interpolator lemmas (claims C4, C8) -/

lemma tokenChar_ne_dollar {c : Char} (h : tokenChar c = true) : c ≠ '$' := by
  intro he
  subst he
  exact absurd h (by decide)

lemma takeWhile_token (body t : List Char)
    (h : ∀ x ∈ body, tokenChar x = true) :
    (body ++ '}' :: t).takeWhile tokenChar = body ∧
    (body ++ '}' :: t).dropWhile tokenChar = '}' :: t := by
  induction body with
  | nil =>
    have h1 : tokenChar '}' = false := by decide
    constructor <;> simp [List.takeWhile, List.dropWhile, h1]
  | cons c cs ih =>
    have hc : tokenChar c = true := h c (by simp)
    have ih2 := ih fun x hx => h x (by simp [hx])
    constructor <;> simp [List.takeWhile, List.dropWhile, hc, ih2.1, ih2.2]

lemma scanTokens_skip (c : Char) (l : List Char) (hc : c ≠ '$') :
    scanTokens (c :: l) = scanTokens l := by
  cases l with
  | nil => simp [scanTokens]
  | cons d rest => simp [scanTokens, hc]

lemma scanTokens_nodollar (l : List Char) (h : ∀ c ∈ l, c ≠ '$') :
    scanTokens l = [] := by
  induction l with
  | nil => rfl
  | cons c cs ih =>
    rw [scanTokens_skip c cs (h c (by simp))]
    exact ih fun x hx => h x (by simp [hx])

lemma scanTokens_pre (pre l : List Char) (hpre : ∀ c ∈ pre, c ≠ '$') :
    scanTokens (pre ++ l) = scanTokens l := by
  induction pre with
  | nil => rfl
  | cons c cs ih =>
    rw [List.cons_append, scanTokens_skip c _ (hpre c (by simp))]
    exact ih fun x hx => hpre x (by simp [hx])

lemma scanTokens_tok (body suf : List Char) (h1 : body ≠ [])
    (h2 : ∀ x ∈ body, tokenChar x = true) (hsuf : ∀ c ∈ suf, c ≠ '$') :
    scanTokens ('$' :: '{' :: (body ++ '}' :: suf)) =
      [('$' :: '{' :: (body ++ ['}']))] := by
  obtain ⟨ht, hd⟩ := takeWhile_token body suf h2
  have hnod : ∀ c ∈ body ++ '}' :: suf, c ≠ '$' := by
    intro c hcmem
    rcases List.mem_append.mp hcmem with hmb | hms
    · exact tokenChar_ne_dollar (h2 c hmb)
    · rcases List.mem_cons.mp hms with rfl | hmem2
      · decide
      · exact hsuf c hmem2
  have hbe : body.isEmpty = false := by
    cases body with
    | nil => exact absurd rfl h1
    | cons x xs => rfl
  simp [scanTokens, ht, hd, hbe, scanTokens_nodollar _ hnod]

lemma startsWithL_self (l t : List Char) : startsWithL l (l ++ t) = true := by
  induction l with
  | nil => rfl
  | cons c cs ih => simp [startsWithL, ih]

lemma identStart_tokenChar {c : Char} (h : identStart c = true) :
    tokenChar c = true := by
  simp only [identStart, Bool.or_eq_true] at h
  rcases h with h | h
  · simp [tokenChar, h]
  · have : c = '_' := by simpa using h
    subst this
    decide

lemma identChar_tokenChar {c : Char} (h : identChar c = true) :
    tokenChar c = true := by
  simp only [identChar, Bool.or_eq_true] at h
  rcases h with (h | h) | h
  · simp [tokenChar, h]
  · simp [tokenChar, h]
  · have : c = '_' := by simpa using h
    subst this
    decide

mutual

theorem dottedPath_tokenChar : ∀ (l : List Char), dottedPath l = true →
    ∀ c ∈ l, tokenChar c = true
  | [], h => by simp [dottedPath] at h
  | c :: cs, h => by
    rw [show dottedPath (c :: cs) = (identStart c && dottedRest cs) from rfl,
      Bool.and_eq_true] at h
    intro x hx
    rcases List.mem_cons.mp hx with rfl | hx2
    · exact identStart_tokenChar h.1
    · exact dottedRest_tokenChar cs h.2 x hx2

theorem dottedRest_tokenChar : ∀ (l : List Char), dottedRest l = true →
    ∀ c ∈ l, tokenChar c = true
  | [], _ => by
    intro c hc
    simp at hc
  | c :: cs, h => by
    by_cases hdot : c = '.'
    · subst hdot
      rw [show dottedRest ('.' :: cs) = dottedPath cs from by simp [dottedRest]] at h
      intro x hx
      rcases List.mem_cons.mp hx with rfl | hx2
      · decide
      · exact dottedPath_tokenChar cs h x hx2
    · rw [show dottedRest (c :: cs) = (identChar c && dottedRest cs) from by
        simp [dottedRest, hdot], Bool.and_eq_true] at h
      intro x hx
      rcases List.mem_cons.mp hx with rfl | hx2
      · exact identChar_tokenChar h.1
      · exact dottedRest_tokenChar cs h.2 x hx2

end

lemma dottedPath_ne_nil {l : List Char} (h : dottedPath l = true) : l ≠ [] := by
  intro he
  subst he
  simp [dottedPath] at h

theorem jsGetSubstitution_nodollar (m b a : List Char) :
    ∀ (repl : List Char), (∀ c ∈ repl, c ≠ '$') →
    jsGetSubstitution m b a repl = repl
  | [], _ => rfl
  | [c], _ => rfl
  | c :: d :: rest, h => by
    have hc : c ≠ '$' := h c (by simp)
    rw [show jsGetSubstitution m b a (c :: d :: rest) =
        c :: jsGetSubstitution m b a (d :: rest) from by
      simp [jsGetSubstitution, hc]]
    rw [jsGetSubstitution_nodollar m b a (d :: rest) fun x hx => h x (by simp [hx])]

lemma replaceGo_at (tok repl suf acc : List Char) (h : tok ≠ []) :
    replaceFirstGo tok repl acc (tok ++ suf) =
      jsGetSubstitution tok acc.reverse suf repl ++ suf := by
  cases tok with
  | nil => exact absurd rfl h
  | cons p ps =>
    have hs := startsWithL_self (p :: ps) suf
    simp only [List.cons_append] at hs ⊢
    simp [replaceFirstGo, hs, List.drop_left]

lemma replaceGo_skip (ps repl acc : List Char) (c : Char) (l : List Char)
    (hc : c ≠ '$') :
    replaceFirstGo ('$' :: ps) repl acc (c :: l) =
      c :: replaceFirstGo ('$' :: ps) repl (c :: acc) l := by
  have hsw : startsWithL ('$' :: ps) (c :: l) = false := by
    simp [startsWithL, Ne.symm hc]
  simp [replaceFirstGo, hsw]

lemma replaceGo_pre (ps repl : List Char) :
    ∀ (pre acc l : List Char), (∀ c ∈ pre, c ≠ '$') →
    replaceFirstGo ('$' :: ps) repl acc (pre ++ l) =
      pre ++ replaceFirstGo ('$' :: ps) repl (pre.reverse ++ acc) l := by
  intro pre
  induction pre with
  | nil =>
    intro acc l _
    rfl
  | cons c cs ih =>
    intro acc l hpre
    rw [List.cons_append, replaceGo_skip _ _ _ _ _ (hpre c (by simp)),
      ih (c :: acc) l fun x hx => hpre x (by simp [hx])]
    simp

lemma resolveArgs_exact_helper (data : JVal) (body : List Char) (h1 : body ≠ [])
    (h2 : ∀ x ∈ body, tokenChar x = true) :
    resolveArgs data (.str (String.mk ('$' :: '{' :: (body ++ ['}'])))) =
      optJ (jpValue data body) := by
  have hscan := scanTokens_tok body [] h1 h2 (by simp)
  show resolveArgsStr data (String.mk ('$' :: '{' :: (body ++ ['}']))) = _
  unfold resolveArgsStr
  rw [show (String.mk ('$' :: '{' :: (body ++ ['}']))).data =
      '$' :: '{' :: (body ++ ['}']) from rfl]
  rw [show ('$' :: '{' :: (body ++ ['}'])) = ('$' :: '{' :: (body ++ '}' :: [])) from rfl,
    hscan]
  simp only [resolveLoop, tokenBody]
  simp [List.dropLast_concat]

lemma resolveArgs_embedded_helper (data : JVal) (body pre suf : List Char)
    (h1 : body ≠ []) (h2 : ∀ x ∈ body, tokenChar x = true)
    (hpre : ∀ c ∈ pre, c ≠ '$') (hsuf : ∀ c ∈ suf, c ≠ '$')
    (hne : pre ≠ [] ∨ suf ≠ []) :
    resolveArgs data (.str (String.mk (pre ++ '$' :: '{' :: (body ++ '}' :: suf)))) =
      .str (String.mk (pre ++
        jsGetSubstitution ('$' :: '{' :: (body ++ ['}'])) pre suf
          ((jsToStringU (jpValue data body)).data) ++ suf)) := by
  have hscan : scanTokens (pre ++ '$' :: '{' :: (body ++ '}' :: suf)) =
      [('$' :: '{' :: (body ++ ['}']))] :=
    (scanTokens_pre pre _ hpre).trans (scanTokens_tok body suf h1 h2 hsuf)
  show resolveArgsStr data _ = _
  unfold resolveArgsStr
  rw [show (String.mk (pre ++ '$' :: '{' :: (body ++ '}' :: suf))).data =
      pre ++ '$' :: '{' :: (body ++ '}' :: suf) from rfl, hscan]
  simp only [resolveLoop]
  have hargs : ¬ (pre ++ '$' :: '{' :: (body ++ '}' :: suf) =
      '$' :: '{' :: (body ++ ['}'])) := by
    intro h
    have hlen := congrArg List.length h
    simp [List.length_append] at hlen
    rcases hne with hp | hs
    · have : 0 < pre.length := List.length_pos.mpr hp
      omega
    · have : 0 < suf.length := List.length_pos.mpr hs
      omega
  rw [if_neg hargs]
  have hform : pre ++ '$' :: '{' :: (body ++ '}' :: suf) =
      pre ++ (('$' :: '{' :: (body ++ ['}'])) ++ suf) := by simp
  rw [show replaceFirstL ('$' :: '{' :: (body ++ ['}']))
      (jsToStringU (jpValue data (tokenBody ('$' :: '{' :: (body ++ ['}']))))).data
      (pre ++ '$' :: '{' :: (body ++ '}' :: suf)) =
      replaceFirstGo ('$' :: '{' :: (body ++ ['}']))
        (jsToStringU (jpValue data (tokenBody ('$' :: '{' :: (body ++ ['}']))))).data
        [] (pre ++ '$' :: '{' :: (body ++ '}' :: suf)) from rfl]
  rw [hform, replaceGo_pre _ _ _ _ _ hpre, replaceGo_at _ _ _ _ (by simp)]
  rw [show tokenBody ('$' :: '{' :: (body ++ ['}'])) = body from by
    simp [tokenBody, List.dropLast_concat]]
  simp [List.append_assoc]

/-- C8: for every data map and every token whose body is a simple dotted
identifier path (the fragment on which the external jsonpath library is
modelled), a string that consists exactly of that one `${...}` token
resolves to the raw value at that JSONPath (preserving its non-string
type; an unresolved path gives `undefined`), while the same token embedded
in surrounding text (here: after any non-`'$'` character) is coerced to a
string — `String(value)` processed by the JavaScript replacement-pattern
rules — and substituted. -/
theorem C8_exact_token_preserves_type (data : JVal) (body : List Char)
    (c : Char) (hpath : dottedPath body = true) (hc : c ≠ '$') :
    resolveArgs data (.str (String.mk ('$' :: '{' :: (body ++ ['}'])))) =
      optJ (jpValue data body) ∧
    resolveArgs data (.str (String.mk (c :: '$' :: '{' :: (body ++ ['}'])))) =
      .str (String.mk (c ::
        jsGetSubstitution ('$' :: '{' :: (body ++ ['}'])) [c] []
          ((jsToStringU (jpValue data body)).data))) := by
  have h1 : body ≠ [] := dottedPath_ne_nil hpath
  have h2 : ∀ x ∈ body, tokenChar x = true := dottedPath_tokenChar body hpath
  constructor
  · exact resolveArgs_exact_helper data body h1 h2
  · have h := resolveArgs_embedded_helper data body [c] [] h1 h2
      (by intro x hx; simp at hx; simpa [hx] using hc)
      (by intro x hx; simp at hx)
      (Or.inl (by simp))
    simpa using h

/-- C8 witness: `interpolate({x: 42}, "${x}")` is the number 42 (not the
string "42"), and `interpolate({x: 42}, "v${x}")` is the string "v42". -/
theorem C8_exact_token_preserves_type_witness :
    resolveArgs (.obj [("x", .num 42)]) (.str "${x}") = .num 42 ∧
    resolveArgs (.obj [("x", .num 42)]) (.str "v${x}") = .str "v42" := by
  have h := C8_exact_token_preserves_type (.obj [("x", .num 42)]) ['x'] 'v'
    (by decide) (by decide)
  exact ⟨h.1, h.2⟩

/-- C4 counterexample: interpolating `"a${x}b"` against an empty data map
does NOT substitute the unresolved token by the empty string (which would
give `"ab"`): it yields `"aundefinedb"` (JavaScript's
`String(undefined)`). -/
theorem C4_unresolved_cex :
    resolveArgs (.obj []) (.str "a${x}b") = .str "aundefinedb" ∧
    resolveArgs (.obj []) (.str "a${x}b") ≠ .str "ab" := by
  refine ⟨rfl, ?_⟩
  intro h
  rw [show resolveArgs (.obj []) (.str "a${x}b") = .str "aundefinedb" from rfl] at h
  injection h with h2
  exact absurd h2 (by decide)

/-- C4 amended: for token bodies that are simple dotted identifier paths
(the fragment of the external jsonpath library modelled here; subscript or
malformed bodies behave differently), a `${...}` token whose JSONPath does
not resolve is substituted by the text `"undefined"` (the string coercion
of the JavaScript `undefined` value, which contains no `'$'` and is hence
inserted literally) when embedded in a larger string, and yields the
`undefined` value when the entire string is exactly that token; on this
fragment the Interpolator is total (raises no exception). -/
theorem C4_unresolved_amended (data : JVal) (body : List Char) (c d : Char)
    (hpath : dottedPath body = true)
    (hc : c ≠ '$') (hd : d ≠ '$') (hun : jpValue data body = none) :
    resolveArgs data (.str (String.mk (c :: '$' :: '{' :: (body ++ '}' :: [d])))) =
      .str (String.mk (c :: ("undefined".data ++ [d]))) ∧
    resolveArgs data (.str (String.mk ('$' :: '{' :: (body ++ ['}'])))) = .undef := by
  have h1 : body ≠ [] := dottedPath_ne_nil hpath
  have h2 : ∀ x ∈ body, tokenChar x = true := dottedPath_tokenChar body hpath
  constructor
  · have h := resolveArgs_embedded_helper data body [c] [d] h1 h2
      (by intro x hx; simp at hx; simpa [hx] using hc)
      (by intro x hx; simp at hx; simpa [hx] using hd)
      (Or.inl (by simp))
    rw [hun] at h
    rw [show jsGetSubstitution ('$' :: '{' :: (body ++ ['}'])) [c] [d]
        ((jsToStringU none).data) = (jsToStringU none).data from
      jsGetSubstitution_nodollar _ _ _ _ (by decide)] at h
    simpa using h
  · have h := resolveArgs_exact_helper data body h1 h2
    rw [hun] at h
    exact h

/-- C4 witness: against the empty data map, `"a${x}b"` interpolates to
`"aundefinedb"` and `"${x}"` to the `undefined` value. -/
theorem C4_unresolved_amended_witness :
    resolveArgs (.obj []) (.str "a${x}b") = .str "aundefinedb" ∧
    resolveArgs (.obj []) (.str "${x}") = .undef := by
  have h := C4_unresolved_amended (.obj []) ['x'] 'a' 'b'
    (by decide) (by decide) (by decide) rfl
  exact ⟨h.1, h.2⟩

/-! ### Command-identifier parsing lemmas (claim C5) -/

lemma splitChar_head (sep : Char) (l : List Char) :
    ∃ rest, splitChar sep l = (l.takeWhile fun c => c != sep) :: rest := by
  induction l with
  | nil => exact ⟨[], rfl⟩
  | cons c cs ih =>
    obtain ⟨rest, hr⟩ := ih
    by_cases hc : c = sep
    · exact ⟨(cs.takeWhile fun x => x != sep) :: rest, by
        simp [splitChar, hr, hc]⟩
    · exact ⟨rest, by simp [splitChar, hr, hc]⟩

lemma splitChar_append (sep : Char) (m l : List Char) (hm : sep ∉ m) :
    splitChar sep (m ++ sep :: l) = m :: splitChar sep l := by
  induction m with
  | nil =>
    obtain ⟨rest, hr⟩ := splitChar_head sep l
    simp [splitChar, hr]
  | cons c m ih =>
    have hc : c ≠ sep := by
      intro he
      exact hm (he ▸ List.mem_cons_self c m)
    have ih2 := ih fun hmem => hm (List.mem_cons_of_mem c hmem)
    simp only [List.cons_append, splitChar]
    rw [List.append_eq, ih2]
    simp [hc]

lemma mk_data_eq (s : String) : String.mk s.data = s := by
  cases s
  rfl

/-- C5 counterexample: `parseCommand` on an id with two dots does NOT
return the entire remainder after the first dot: `"m.a.b"` parses to
command `"a"`, not `"a.b"`, because `id.split(".", 2)` truncates; and
`getCommand` cannot resolve a registered command literally named `"a.b"`
through the id `"m.a.b"`. -/
theorem C5_split_cex :
    parseCommand "m.a.b" = ⟨some "m", some "a"⟩ ∧
    (parseCommand "m.a.b").command ≠ some "a.b" ∧
    getCommand dottedCmdState "m.a.b" = none := by
  refine ⟨rfl, ?_, rfl⟩
  intro h
  rw [show (parseCommand "m.a.b").command = some "a" from rfl] at h
  injection h with h2
  exact absurd h2 (by decide)

/-- C5 amended: `parseCommand` splits the id at every `'.'` and keeps only
the first two segments: the module is the text before the first `'.'`, and
the command is the text between the first and the second `'.'` (or to the
end when there is no second dot) — everything after a second dot is
discarded; `getCommand` resolves with the same two segments and returns
null when the module or the command is not registered. -/
theorem C5_parse_amended (m c : String) (st : ModulesState)
    (hm : '.' ∉ m.data) :
    parseCommand (String.mk (m.data ++ '.' :: c.data)) =
      ⟨some m, some (String.mk (c.data.takeWhile fun x => x != '.'))⟩ ∧
    getCommand st (String.mk (m.data ++ '.' :: c.data)) =
      (match st.modules.lookup m with
       | none => none
       | some md =>
         md.commands.lookup (String.mk (c.data.takeWhile fun x => x != '.'))) := by
  have hsplit : splitChar '.' (m.data ++ '.' :: c.data) =
      m.data :: splitChar '.' c.data := splitChar_append '.' m.data c.data hm
  obtain ⟨rest, hr⟩ := splitChar_head '.' c.data
  have hdata : (String.mk (m.data ++ '.' :: c.data)).data =
      m.data ++ '.' :: c.data := rfl
  constructor
  · simp [parseCommand, jsSplit, hdata, hsplit, hr, mk_data_eq]
  · simp [getCommand, jsSplit, hdata, hsplit, hr, mk_data_eq]

/-- C5 witness: `"http.get"` parses to module `http`, command `get`, and
resolves against a registry holding that command. -/
theorem C5_parse_amended_witness :
    parseCommand "http.get" = ⟨some "http", some "get"⟩ ∧
    getCommand httpState "http.get" = some { description := some "d" } := by
  have h := C5_parse_amended "http" "get" httpState (by decide)
  exact ⟨h.1, h.2⟩

/-! ### Module registration lemmas (claim C9) -/

lemma validateCommandObject_ok {cmd : JCommand}
    (h : validateCommandObject cmd = .ok ()) :
    cmd.argsValidatorF = none ∧ cmd.expectValidatorF = none := by
  unfold validateCommandObject at h
  split_ifs at h with h1 h2 h3 h4 h5 h6 h7
  exact ⟨Option.not_isSome_iff_eq_none.mp h6, Option.not_isSome_iff_eq_none.mp h7⟩

lemma validateCommands_reserved (cmds : List (String × JCommand))
    (h : ∃ kc ∈ cmds,
      kc.2.argsValidatorF.isSome = true ∨ kc.2.expectValidatorF.isSome = true) :
    isOkE (validateCommands cmds) = false := by
  induction cmds with
  | nil => simp at h
  | cons kc rest ih =>
    obtain ⟨k, cmd⟩ := kc
    obtain ⟨kc2, hmem, hv⟩ := h
    cases hcv : validateCommandObject cmd with
    | error e => simp [validateCommands, hcv, isOkE, Bind.bind, Except.bind]
    | ok u =>
      cases u
      rcases List.mem_cons.mp hmem with heq | hmem2
      · obtain ⟨hn1, hn2⟩ := validateCommandObject_ok hcv
        subst heq
        rcases hv with hv | hv
        · rw [hn1] at hv
          exact absurd hv (by simp)
        · rw [hn2] at hv
          exact absurd hv (by simp)
      · have := ih ⟨kc2, hmem2, hv⟩
        simpa [validateCommands, hcv, Bind.bind, Except.bind] using this

/-- C9 counterexample: a module whose command already carries the reserved
`_argsValidator` field is NOT rejected by `register` — registration
succeeds; the rejection lives only in `validateModuleObject`, which
`register` never calls. -/
theorem C9_reserved_cex :
    isOkE (register ⟨[]⟩ reservedFieldModule) = true ∧
    isOkE (validateModuleObject reservedFieldModule) = false := by
  exact ⟨rfl, rfl⟩

/-- C9 amended: `register` fails exactly on a duplicate module name and
otherwise compiles each command's present argsSchema/expectSchema into a
validator cached on the command; the reserved-field (`_argsValidator` /
`_expectValidator`) rejection is performed by `validateModuleObject` — and
hence by the file-loading path `load`, which validates before registering —
not by `register` itself. -/
theorem C9_register_amended :
    (∀ (st : ModulesState) (mod : JModule),
      (st.modules.lookup mod.name).isSome = true →
      isOkE (register st mod) = false) ∧
    (∀ (cmd : JCommand) (s : JVal), cmd.argsSchema = some s →
      (registerCompileCmd cmd).argsValidatorF = some (ajvCompile s)) ∧
    (∀ (cmd : JCommand) (s : JVal), cmd.expectSchema = some s →
      (registerCompileCmd cmd).expectValidatorF = some (ajvCompile s)) ∧
    (∀ mod : JModule,
      (∃ kc ∈ mod.commands,
        kc.2.argsValidatorF.isSome = true ∨ kc.2.expectValidatorF.isSome = true) →
      isOkE (validateModuleObject mod) = false) ∧
    (∀ (st : ModulesState) (mod : JModule),
      (∃ kc ∈ mod.commands,
        kc.2.argsValidatorF.isSome = true ∨ kc.2.expectValidatorF.isSome = true) →
      isOkE (load st mod) = false) := by
  have hval : ∀ mod : JModule,
      (∃ kc ∈ mod.commands,
        kc.2.argsValidatorF.isSome = true ∨ kc.2.expectValidatorF.isSome = true) →
      isOkE (validateModuleObject mod) = false := by
    intro mod h
    unfold validateModuleObject
    by_cases hn : mod.name = ""
    · simp [hn, isOkE]
    · simp only [hn, if_false]
      exact validateCommands_reserved mod.commands h
  refine ⟨?_, ?_, ?_, hval, ?_⟩
  · intro st mod h
    simp [register, h, isOkE]
  · intro cmd s h
    simp [registerCompileCmd, h]
  · intro cmd s h
    simp [registerCompileCmd, h]
  · intro st mod h
    have h2 := hval mod h
    unfold load
    cases hv : validateModuleObject mod with
    | error e => simp [hv, isOkE, Bind.bind, Except.bind]
    | ok u => rw [hv] at h2; exact absurd h2 (by simp [isOkE])

/-- C9 witness: registering a second module named `http` fails; schemas are
compiled into cached validators; a module with a pre-set `_argsValidator`
is rejected by `validateModuleObject` and by `load`. -/
theorem C9_register_amended_witness :
    isOkE (register httpState { name := "http", commands := [] }) = false ∧
    (registerCompileCmd { argsSchema := some (.obj []) }).argsValidatorF =
      some (ajvCompile (.obj [])) ∧
    (registerCompileCmd { expectSchema := some (.obj []) }).expectValidatorF =
      some (ajvCompile (.obj [])) ∧
    isOkE (validateModuleObject reservedFieldModule) = false ∧
    isOkE (load ⟨[]⟩ reservedFieldModule) = false := by
  have h := C9_register_amended
  have hex : ∃ kc ∈ reservedFieldModule.commands,
      kc.2.argsValidatorF.isSome = true ∨ kc.2.expectValidatorF.isSome = true := by
    refine ⟨("c", { description := some "d", argsValidatorF := some ⟨.obj []⟩ }), ?_, ?_⟩
    · simp [reservedFieldModule]
    · exact Or.inl rfl
  exact ⟨h.1 _ _ rfl, h.2.1 _ _ rfl, h.2.2.1 _ _ rfl,
    h.2.2.2.1 _ hex, h.2.2.2.2 _ _ hex⟩

/-! ### Repository build lemmas (claim C6) -/

mutual

theorem inheritOK_build : ∀ (p : Option SetEntryB) (e : SetEntryB),
    InheritOK (buildTestSet p e)
  | none, .mk sch tags be ae sk ch =>
    inheritChildren_build (.mk sch tags be ae sk ch) ch
  | some pp, .mk none tags be ae sk ch =>
    inheritChildren_build (.mk none tags be ae sk ch) ch
  | some pp, .mk (some s) tags be ae sk ch =>
    inheritChildren_build
      (.mk (some s) (pp.tags ++ s.tags) (pp.beforeEachTasks ++ s.beforeEach.getD [])
        (pp.afterEachTasks ++ s.afterEach.getD []) (jsOrB pp.skip s.skip) ch) ch

theorem inheritChildren_build : ∀ (par : SetEntryB) (cs : List SetEntryB),
    InheritChildren par.beforeEachTasks par.afterEachTasks (buildChildren par cs)
  | _, [] => trivial
  | par, c :: cs => by
    refine ⟨?_, inheritOK_build (some par) c, inheritChildren_build par cs⟩
    cases c with
    | mk csch ctags cbe cae csk cch =>
      cases csch with
      | none => trivial
      | some s => exact ⟨rfl, rfl⟩

end

/-- C6 counterexample: in a built tree, a placeholder entry (one created by
`resolveSetEntry` for an intermediate path segment and claimed by no
document, so `schema = null`) does NOT satisfy the accumulation equation:
its `beforeEachTasks` stays `[]` although its parent's list is `["t1"]`. -/
theorem C6_accumulation_cex :
    (((buildTestSet none cexRoot).children.headD default).children.headD
        default).schema = none ∧
    ((buildTestSet none cexRoot).children.headD default).beforeEachTasks = ["t1"] ∧
    (((buildTestSet none cexRoot).children.headD default).children.headD
        default).beforeEachTasks ≠
      ((buildTestSet none cexRoot).children.headD default).beforeEachTasks ++ [] := by
  refine ⟨rfl, rfl, ?_⟩
  intro h
  rw [show (((buildTestSet none cexRoot).children.headD default).children.headD
        default).beforeEachTasks = [] from rfl,
    show ((buildTestSet none cexRoot).children.headD default).beforeEachTasks =
        ["t1"] from rfl] at h
  simp at h

/-- C6 amended: after `build`, every entry of the tree that carries a schema
(i.e. was claimed by a document) has `beforeEachTasks` equal to its parent's
`beforeEachTasks` concatenated with its own beforeEach list, and likewise
for `afterEachTasks`; placeholder entries (schema = null) are skipped by
the merge and keep their pre-build (empty, as created by `resolveSetEntry`)
lists, so the root-to-leaf accumulation only holds along chains of claimed
entries. -/
theorem C6_accumulation_amended (p : Option SetEntryB) (e : SetEntryB) :
    InheritOK (buildTestSet p e) ∧
    (e.schema = none →
      (buildTestSet p e).beforeEachTasks = e.beforeEachTasks ∧
      (buildTestSet p e).afterEachTasks = e.afterEachTasks) := by
  refine ⟨inheritOK_build p e, ?_⟩
  intro hn
  cases e with
  | mk sch tags be ae sk ch =>
    have hs : sch = none := hn
    subst hs
    cases p with
    | none => exact ⟨rfl, rfl⟩
    | some pp => exact ⟨rfl, rfl⟩

/-- C6 witness: the inheritance invariant holds of the concrete built tree,
and the (placeholder) root keeps its empty list. -/
theorem C6_accumulation_amended_witness :
    InheritOK (buildTestSet none cexRoot) ∧
    (buildTestSet none cexRoot).beforeEachTasks = [] := by
  have h := C6_accumulation_amended none cexRoot
  exact ⟨h.1, ((h.2 rfl).1).trans rfl⟩

/-! ### Runner counter aggregation (claim C2) -/

/-- C2 (code bug): the CompleteReport counter identity fails on the code.
Evaluating the Runner's counter aggregation at a run whose single root set
is skipped (it contains one test): `skippedCount` becomes `NaN` — the code
adds the entry's `testCount` field, which the Repository never assigns, so
`undefined` is added — instead of the transitive test count 1 demanded by
the claim, and the report's `testCount` stays 0, so
`testCount = skippedCount + executed` fails.  The same happens for a
skipped child set nested under a running parent.  Additionally,
`runTaskList` counts tasks having errors, not the sum of errors: a single
task report carrying two errors contributes `errorCount = 1`. -/
theorem C2_counter_identity_bug :
    (runModel [cexSkippedSet]).skippedCount = JNum.nan ∧
    (runModel [cexSkippedSet]).testCount = JNum.int 0 ∧
    specTestCount cexSkippedSet = 1 ∧
    (runTestSetModel cexParentSet).skippedCount = JNum.nan ∧
    (runTestSetModel cexParentSet).testCount = JNum.int 0 ∧
    runTaskListModel [{ id := some "a", runErrors := ["e1", "e2"] }] =
      some (.ok [("a", ["e1", "e2"])] 1) := by
  exact ⟨rfl, rfl, rfl, rfl, rfl, rfl⟩

/-! ### Runner scheduling (claims C1, C7, C10) -/

/-- C1 (code bug): when a command's run resolves without ever invoking
`notifyReady` (and validation passed), the coordinator deadlocks at the
task's run step: `runTask` resolves the ready latch only on the
validation-error path, and nothing resolves it when the result future
completes, so `await ready.promise` never completes — contrary to the
claim that the latch is implicitly resolved once the task's result future
completes and the coordinator never deadlocks. -/
theorem C1_missing_notifyReady_deadlocks :
    runTaskListModel [{ id := some "a", callsNotifyReady := false }] =
      some (.deadlock []) ∧
    taskLatchResolved { id := some "a", callsNotifyReady := false } = false := by
  exact ⟨rfl, rfl⟩

/-- C7: when a wait step resolves with a non-empty error list and the
task's `continueOnError` is false, the coordinator stops: no further plan
steps are processed (the remaining `rest` of the plan does not influence
the result), and the reports collected so far — extended with this task's
report — are returned with the error count incremented.  Wait steps
preceding this one were already executed (they contributed to `reports`). -/
theorem C7_continueOnError_stops (m : List (String × MapEntry))
    (started : List String) (reports : List (String × List String))
    (errorCount : Nat) (k : String) (e : MapEntry) (o : Int)
    (rest : List PlanStep)
    (hk : m.lookup k = some e) (hs : k ∈ started)
    (herr : taskReportErrors e.task ≠ [])
    (hcont : e.task.continueOnError = false) :
    execPlan m started reports errorCount
        ({ waitFor := some k, order := o } :: rest) =
      .ok (reports ++ [(k, taskReportErrors e.task)]) (errorCount + 1) := by
  simp [execPlan, hk, hs, herr, hcont]

/-- C7 witness: with task `a` already started and failing (one error,
`continueOnError = false`), its wait step terminates the plan — the
pending run step of `b` is never processed — returning the single
collected report. -/
theorem C7_continueOnError_stops_witness :
    execPlan [("a", ⟨{ id := some "a", runErrors := ["e"] }, 0, 1⟩)] ["a"] [] 0
        [{ waitFor := some "a", order := 1 }, { runTask := some "b", order := 5 }] =
      .ok [("a", ["e"])] 1 := by
  exact C7_continueOnError_stops _ _ _ _ "a"
    ⟨{ id := some "a", runErrors := ["e"] }, 0, 1⟩ 1
    [{ runTask := some "b", order := 5 }] rfl (by simp) (by decide) rfl

/-- C10: two tasks with the same explicit id collapse to a single task-map
entry holding the later task (the map is keyed by id and assignment
overwrites), so exactly one run step and one wait step are planned for
that id, the execution produces exactly one report — the later task's —
and the earlier task is never executed; and Repository validation raises
no error for the duplicate id (it only checks command resolution and
`runBeforeAsync` targets). -/
theorem C10_duplicate_id_overwrites (s : String) (t1 t2 : RTask)
    (h1 : t1.id = some s) (h2 : t2.id = some s) (hs : s ≠ "")
    (hrb : t2.runBeforeAsync = none) :
    buildTaskMap [t1, t2] = [(s, ⟨t2, 1000, 1001⟩)] ∧
    resolveDeps [(s, ⟨t2, 1000, 1001⟩)] = some [(s, ⟨t2, 1000, 1001⟩)] ∧
    planSort (buildPlan [(s, ⟨t2, 1000, 1001⟩)]) =
      [{ runTask := some s, order := 1000 }, { waitFor := some s, order := 1001 }] ∧
    (taskLatchResolved t2 = true →
      runTaskListModel [t1, t2] =
        some (.ok [(s, taskReportErrors t2)]
          (if taskReportErrors t2 = [] then 0 else 1))) ∧
    (∀ (ajv : JVal → JVal → Bool) (st : ModulesState) (v1 v2 : VTask)
        (c1 c2 : JCommand),
      v1.id = some s → v2.id = some s →
      getCommand st v1.doCmd = some c1 → getCommand st v2.doCmd = some c2 →
      c1.argsValidatorF = none → c1.expectValidatorF = none →
      c2.argsValidatorF = none → c2.expectValidatorF = none →
      v1.runBeforeAsync = none → v2.runBeforeAsync = none →
      validateTaskList ajv st [v1, v2] = []) := by
  have hmap : buildTaskMap [t1, t2] = [(s, ⟨t2, 1000, 1001⟩)] := by
    simp [buildTaskMap, buildTaskMapAux, taskKey, h1, h2, hs, jsObjUpsert, jsObjSet]
  have hdeps : resolveDeps [(s, ⟨t2, 1000, 1001⟩)] = some [(s, ⟨t2, 1000, 1001⟩)] := by
    simp [resolveDeps, resolveDepsStep, hrb]
  have hplan : planSort (buildPlan [(s, ⟨t2, 1000, 1001⟩)]) =
      [{ runTask := some s, order := 1000 }, { waitFor := some s, order := 1001 }] := by
    simp [buildPlan, planSort, planInsert]
  refine ⟨hmap, hdeps, hplan, ?_, ?_⟩
  · intro hlatch
    unfold runTaskListModel
    rw [hmap, hdeps]
    show some (execPlan [(s, ⟨t2, 1000, 1001⟩)] [] [] 0
      (planSort (buildPlan [(s, ⟨t2, 1000, 1001⟩)]))) = _
    rw [hplan]
    by_cases herr : taskReportErrors t2 = []
    · simp [execPlan, hlatch, herr]
    · by_cases hcont : t2.continueOnError
      · simp [execPlan, hlatch, herr, hcont]
      · simp [execPlan, hlatch, herr, hcont]
  · intro ajv st v1 v2 c1 c2 _ _ hc1 hc2 ha1 he1 ha2 he2 hr1 hr2
    simp [validateTaskList, validateTaskListAux, validateTask,
      hc1, hc2, ha1, he1, ha2, he2, hr1, hr2]

/-- C10 witness: two tasks with id `x` — the later one failing — produce a
single-entry map, a two-step plan, the later task's single report, and no
validation error against a registry resolving their command. -/
theorem C10_duplicate_id_overwrites_witness :
    buildTaskMap [{ id := some "x" }, { id := some "x", runErrors := ["e"] }] =
      [("x", ⟨{ id := some "x", runErrors := ["e"] }, 1000, 1001⟩)] ∧
    runTaskListModel [{ id := some "x" }, { id := some "x", runErrors := ["e"] }] =
      some (.ok [("x", ["e"])] 1) ∧
    validateTaskList (fun _ _ => true) httpState
      [{ id := some "x", doCmd := "http.get" },
       { id := some "x", doCmd := "http.get" }] = [] := by
  have h := C10_duplicate_id_overwrites "x" { id := some "x" }
    { id := some "x", runErrors := ["e"] } rfl rfl (by decide) rfl
  refine ⟨h.1, ?_, ?_⟩
  · have h4 := h.2.2.2.1 rfl
    simpa using h4
  · exact h.2.2.2.2 (fun _ _ => true) httpState
      { id := some "x", doCmd := "http.get" } { id := some "x", doCmd := "http.get" }
      { description := some "d" } { description := some "d" }
      rfl rfl rfl rfl rfl rfl rfl rfl rfl rfl

/-! ### Runner dependency-resolution lemmas (claim C3) -/

lemma lookup_isSome_of_mem_keys {m : List (String × MapEntry)} {k : String}
    (h : k ∈ m.map Prod.fst) : (m.lookup k).isSome = true := by
  induction m with
  | nil => simp at h
  | cons kv rest ih =>
    obtain ⟨k0, v0⟩ := kv
    by_cases hk : k = k0
    · have hbe : (k == k0) = true := beq_iff_eq.mpr hk
      simp [List.lookup_cons, hbe]
    · have hbe : (k == k0) = false := beq_eq_false_iff_ne.mpr hk
      have h2 : k ∈ rest.map Prod.fst := by
        rcases (by simpa using h : k = k0 ∨ k ∈ rest.map Prod.fst) with h1 | h2
        · exact absurd h1 hk
        · exact h2
      simpa [List.lookup_cons, hbe] using ih h2

lemma lookup_to_mem {m : List (String × MapEntry)} {k : String} {e : MapEntry}
    (h : m.lookup k = some e) : (k, e) ∈ m := by
  induction m with
  | nil => simp [List.lookup] at h
  | cons kv rest ih =>
    obtain ⟨k0, v0⟩ := kv
    by_cases hk : k = k0
    · subst hk
      have hbe : (k == k) = true := beq_iff_eq.mpr rfl
      simp [List.lookup_cons, hbe] at h
      simp [h]
    · have hbe : (k == k0) = false := beq_eq_false_iff_ne.mpr hk
      simp [List.lookup_cons, hbe] at h
      exact List.mem_cons_of_mem _ (ih h)

lemma jsObjSet_keys (m : List (String × MapEntry)) (k : String) (v : MapEntry) :
    (jsObjSet m k v).map Prod.fst = m.map Prod.fst := by
  unfold jsObjSet
  rw [List.map_map]
  apply List.map_congr_left
  intro kv _
  by_cases h : kv.1 = k <;> simp [h, Function.comp]

lemma jsObjSet_lookup_self {m : List (String × MapEntry)} {k : String}
    (hin : (m.lookup k).isSome = true) (v : MapEntry) :
    (jsObjSet m k v).lookup k = some v := by
  induction m with
  | nil => simp [List.lookup] at hin
  | cons kv rest ih =>
    obtain ⟨k0, v0⟩ := kv
    by_cases hk : k0 = k
    · subst hk
      have hbe : (k0 == k0) = true := beq_iff_eq.mpr rfl
      simp [jsObjSet, List.lookup_cons, hbe]
    · have hbe : (k == k0) = false := beq_eq_false_iff_ne.mpr fun h => hk h.symm
      have hin2 : (rest.lookup k).isSome = true := by
        simpa [List.lookup_cons, hbe] using hin
      have hrec := ih hin2
      simpa [jsObjSet, List.lookup_cons, hk, hbe] using hrec

lemma jsObjSet_lookup_other {m : List (String × MapEntry)} {k kp : String}
    (hk : kp ≠ k) (v : MapEntry) :
    (jsObjSet m k v).lookup kp = m.lookup kp := by
  induction m with
  | nil => rfl
  | cons kv rest ih =>
    obtain ⟨k0, v0⟩ := kv
    by_cases h0 : k0 = k
    · subst h0
      have hbe : (kp == k0) = false := beq_eq_false_iff_ne.mpr hk
      simp [jsObjSet, List.lookup_cons, hbe]
      exact ih
    · by_cases h1 : kp = k0
      · subst h1
        have hbe : (kp == kp) = true := beq_iff_eq.mpr rfl
        simp [jsObjSet, List.lookup_cons, h0, hbe]
      · have hbe : (kp == k0) = false := beq_eq_false_iff_ne.mpr h1
        simp [jsObjSet, List.lookup_cons, h0, hbe]
        exact ih

lemma lookup_append_right_none {m : List (String × MapEntry)} {k : String}
    (h : m.lookup k = none) (l : List (String × MapEntry)) :
    (m ++ l).lookup k = l.lookup k := by
  induction m with
  | nil => rfl
  | cons kv rest ih =>
    obtain ⟨k0, v0⟩ := kv
    by_cases hk : k = k0
    · have hbe : (k == k0) = true := beq_iff_eq.mpr hk
      simp only [List.lookup_cons, hbe] at h
      exact absurd h (by simp)
    · have hbe : (k == k0) = false := beq_eq_false_iff_ne.mpr hk
      simp only [List.lookup_cons, hbe] at h
      simp only [List.cons_append, List.lookup_cons, hbe]
      exact ih h

lemma buildTaskMapAux_eq (ts : List RTask) :
    ∀ (k0 : Nat) (m : List (String × MapEntry)),
    (∀ t ∈ ts, ∃ s, t.id = some s ∧ s ≠ "") →
    (∀ t ∈ ts, ∀ s, t.id = some s → m.lookup s = none) →
    (ts.map RTask.id).Nodup →
    buildTaskMapAux k0 m ts = m ++ (ts.enumFrom k0).map enumMapF := by
  induction ts with
  | nil =>
    intro k0 m _ _ _
    simp [buildTaskMapAux]
  | cons t ts ih =>
    intro k0 m hgood hfresh hnodup
    obtain ⟨s, hid, hs⟩ := hgood t (by simp)
    have hkey : taskKey k0 t = s := by simp [taskKey, hid, hs]
    have hlk : m.lookup s = none := hfresh t (by simp) s hid
    have hup : jsObjUpsert m (taskKey k0 t)
        (⟨t, (k0 : Int) * 1000, (k0 : Int) * 1000 + 1⟩ : MapEntry) =
        m ++ [(s, (⟨t, (k0 : Int) * 1000, (k0 : Int) * 1000 + 1⟩ : MapEntry))] := by
      rw [hkey]
      simp [jsObjUpsert, hlk]
    have hnotmem : t.id ∉ ts.map RTask.id := (List.nodup_cons.mp hnodup).1
    have hfresh2 : ∀ t2 ∈ ts, ∀ s2, t2.id = some s2 →
        (m ++ [(s, (⟨t, (k0 : Int) * 1000, (k0 : Int) * 1000 + 1⟩ : MapEntry))]).lookup
          s2 = none := by
      intro t2 hmem s2 hid2
      have hne : s2 ≠ s := by
        intro he
        subst he
        exact hnotmem (by rw [hid, ← hid2]; exact List.mem_map_of_mem RTask.id hmem)
      rw [lookup_append_right_none (hfresh t2 (by simp [hmem]) s2 hid2)]
      have hbe : (s2 == s) = false := beq_eq_false_iff_ne.mpr hne
      simp [List.lookup_cons, hbe, List.lookup]
    have hrec := ih (k0 + 1)
      (m ++ [(s, (⟨t, (k0 : Int) * 1000, (k0 : Int) * 1000 + 1⟩ : MapEntry))])
      (fun t2 hmem => hgood t2 (by simp [hmem])) hfresh2
      (List.nodup_cons.mp hnodup).2
    have hstep : buildTaskMapAux k0 m (t :: ts) = buildTaskMapAux (k0 + 1)
        (jsObjUpsert m (taskKey k0 t)
          (⟨t, (k0 : Int) * 1000, (k0 : Int) * 1000 + 1⟩ : MapEntry)) ts := rfl
    rw [hstep, hup, hrec, List.enumFrom_cons]
    simp [enumMapF, hkey]

lemma lookup_enumFrom_map (ts : List RTask) :
    ∀ (k0 i : Nat) (t : RTask) (s : String),
    ts.get? i = some t → t.id = some s → s ≠ "" →
    (∀ t2 ∈ ts, ∃ s2, t2.id = some s2 ∧ s2 ≠ "") →
    (ts.map RTask.id).Nodup →
    ((ts.enumFrom k0).map enumMapF).lookup s =
      some ⟨t, ((k0 + i : Nat) : Int) * 1000, ((k0 + i : Nat) : Int) * 1000 + 1⟩ := by
  induction ts with
  | nil =>
    intro _ i _ _ h
    simp at h
  | cons t0 ts ih =>
    intro k0 i t s hget hid hs hgood hnodup
    cases i with
    | zero =>
      rw [show (t0 :: ts).get? 0 = some t0 from rfl] at hget
      injection hget with hget
      subst hget
      have hkey : taskKey k0 t0 = s := by simp [taskKey, hid, hs]
      have hbe : (s == s) = true := beq_iff_eq.mpr rfl
      simp [List.enumFrom_cons, enumMapF, hkey, List.lookup_cons, hbe]
    | succ j =>
      simp only [List.get?_cons_succ] at hget
      obtain ⟨s0, hid0, hs0⟩ := hgood t0 (by simp)
      have hkey0 : taskKey k0 t0 = s0 := by simp [taskKey, hid0, hs0]
      have hne : s ≠ s0 := by
        intro he
        subst he
        have hmem : t ∈ ts := List.mem_iff_get?.mpr ⟨j, hget⟩
        exact (List.nodup_cons.mp hnodup).1
          (by rw [hid0, ← hid]; exact List.mem_map_of_mem RTask.id hmem)
      have hbe : (s == s0) = false := beq_eq_false_iff_ne.mpr hne
      have hrec := ih (k0 + 1) j t s hget hid hs
        (fun t2 hmem => hgood t2 (by simp [hmem])) (List.nodup_cons.mp hnodup).2
      rw [List.enumFrom_cons]
      simp only [List.map_cons, enumMapF, hkey0, List.lookup_cons, hbe]
      rw [show k0 + 1 + j = k0 + (j + 1) from by omega] at hrec
      exact hrec

lemma snd_mem_of_mem_enumFrom {ts : List RTask} :
    ∀ {k0 : Nat} {it : Nat × RTask}, it ∈ ts.enumFrom k0 → it.2 ∈ ts := by
  induction ts with
  | nil =>
    intro k0 it h
    simp at h
  | cons t ts ih =>
    intro k0 it h
    rw [List.enumFrom_cons] at h
    rcases List.mem_cons.mp h with rfl | h2
    · simp
    · exact List.mem_cons_of_mem _ (ih h2)

lemma resolveDeps_fold
    (m0 : List (String × MapEntry)) (uKey tKey : String) (eU eT : MapEntry)
    (hrbaT : eT.task.runBeforeAsync = some uKey)
    (hrbaU : eU.task.runBeforeAsync = none)
    (hT0 : m0.lookup tKey = some eT)
    (hclosed : ∀ k e, m0.lookup k = some e → ∀ r, e.task.runBeforeAsync = some r →
      r ∈ m0.map Prod.fst) :
    ∀ (ks : List String) (m : List (String × MapEntry)),
    ks.Nodup →
    (∀ k ∈ ks, k ∈ m0.map Prod.fst) →
    m.map Prod.fst = m0.map Prod.fst →
    (∀ k e0, m0.lookup k = some e0 → ∃ e, m.lookup k = some e ∧
      e.task = e0.task ∧ e.waitOrder = e0.waitOrder) →
    m.lookup uKey = some eU →
    ∃ mf, ks.foldlM resolveDepsStep m = some mf ∧
      mf.map Prod.fst = m0.map Prod.fst ∧
      (∀ k e0, m0.lookup k = some e0 → ∃ e, mf.lookup k = some e ∧
        e.task = e0.task ∧ e.waitOrder = e0.waitOrder) ∧
      mf.lookup uKey = some eU ∧
      (tKey ∈ ks → mf.lookup tKey =
        some ⟨eT.task, eU.runOrder - 1, eT.waitOrder⟩) ∧
      (tKey ∉ ks → mf.lookup tKey = m.lookup tKey) := by
  intro ks
  induction ks with
  | nil =>
    intro m _ _ hkeys hpres hU
    exact ⟨m, rfl, hkeys, hpres, hU, by simp, fun _ => rfl⟩
  | cons k ks ih =>
    intro m hnd hkin hkeys hpres hU
    have hkin0 : k ∈ m0.map Prod.fst := hkin k (by simp)
    have hsome : (m.lookup k).isSome = true :=
      lookup_isSome_of_mem_keys (hkeys ▸ hkin0)
    obtain ⟨e, he⟩ := Option.isSome_iff_exists.mp hsome
    have hsome0 : (m0.lookup k).isSome = true := lookup_isSome_of_mem_keys hkin0
    obtain ⟨e0, he0⟩ := Option.isSome_iff_exists.mp hsome0
    obtain ⟨e', he', htask, hwait⟩ := hpres k e0 he0
    have hee : e' = e := by
      rw [he] at he'
      exact (Option.some.inj he').symm
    subst hee
    cases hrba : e'.task.runBeforeAsync with
    | none =>
      have hstep : resolveDepsStep m k = some m := by
        simp [resolveDepsStep, he, hrba]
      obtain ⟨mf, hfold, hkf, hpf, hUf, htin, htout⟩ :=
        ih m (List.nodup_cons.mp hnd).2 (fun x hx => hkin x (by simp [hx]))
          hkeys hpres hU
      refine ⟨mf, ?_, hkf, hpf, hUf, ?_, ?_⟩
      · rw [List.foldlM_cons, hstep]
        simpa using hfold
      · intro htm
        by_cases hkt : tKey = k
        · subst hkt
          have he0T : e0 = eT := by
            rw [hT0] at he0
            exact (Option.some.inj he0).symm
          rw [htask, he0T, hrbaT] at hrba
          exact absurd hrba (by simp)
        · have h2 : tKey ∈ ks := by
            rcases List.mem_cons.mp htm with h | h
            · exact absurd h hkt
            · exact h
          exact htin h2
      · intro htm
        have h2 : tKey ∉ ks := fun h => htm (by simp [h])
        exact htout h2
    | some r =>
      have hrmem : r ∈ m0.map Prod.fst := by
        refine hclosed k e0 he0 r ?_
        rw [← htask]
        exact hrba
      have hrsome : (m.lookup r).isSome = true :=
        lookup_isSome_of_mem_keys (hkeys ▸ hrmem)
      obtain ⟨re, hre⟩ := Option.isSome_iff_exists.mp hrsome
      have hstep : resolveDepsStep m k =
          some (jsObjSet m k { e' with runOrder := re.runOrder - 1 }) := by
        simp [resolveDepsStep, he, hrba, hre]
      have hkeys1 : (jsObjSet m k { e' with runOrder := re.runOrder - 1 }).map
          Prod.fst = m0.map Prod.fst := by
        rw [jsObjSet_keys, hkeys]
      have hpres1 : ∀ k2 e02, m0.lookup k2 = some e02 →
          ∃ e2, (jsObjSet m k { e' with runOrder := re.runOrder - 1 }).lookup k2 =
            some e2 ∧ e2.task = e02.task ∧ e2.waitOrder = e02.waitOrder := by
        intro k2 e02 h02
        by_cases hk2 : k2 = k
        · subst hk2
          have he02 : e02 = e0 := by
            rw [he0] at h02
            exact (Option.some.inj h02).symm
          exact ⟨{ e' with runOrder := re.runOrder - 1 },
            jsObjSet_lookup_self hsome _, by simp [htask, he02], by simp [hwait, he02]⟩
        · obtain ⟨e2, he2, ht2, hw2⟩ := hpres k2 e02 h02
          exact ⟨e2, by rw [jsObjSet_lookup_other hk2]; exact he2, ht2, hw2⟩
      have hU1 : (jsObjSet m k { e' with runOrder := re.runOrder - 1 }).lookup
          uKey = some eU := by
        by_cases hku : uKey = k
        · subst hku
          have heeU : e' = eU := by
            rw [hU] at he
            exact (Option.some.inj he).symm
          rw [heeU, hrbaU] at hrba
          exact absurd hrba (by simp)
        · rw [jsObjSet_lookup_other hku]
          exact hU
      obtain ⟨mf, hfold, hkf, hpf, hUf, htin, htout⟩ :=
        ih (jsObjSet m k { e' with runOrder := re.runOrder - 1 })
          (List.nodup_cons.mp hnd).2 (fun x hx => hkin x (by simp [hx]))
          hkeys1 hpres1 hU1
      refine ⟨mf, ?_, hkf, hpf, hUf, ?_, ?_⟩
      · rw [List.foldlM_cons, hstep]
        simpa using hfold
      · intro htm
        by_cases hkt : tKey = k
        · subst hkt
          have he0T : e0 = eT := by
            rw [hT0] at he0
            exact (Option.some.inj he0).symm
          have hruKey : r = uKey := by
            rw [htask, he0T, hrbaT] at hrba
            injection hrba with h
            exact h.symm
          have hreU : re = eU := by
            subst hruKey
            rw [hU] at hre
            exact (Option.some.inj hre).symm
          have hnot : tKey ∉ ks := (List.nodup_cons.mp hnd).1
          rw [htout hnot, jsObjSet_lookup_self hsome]
          have : ({ e' with runOrder := re.runOrder - 1 } : MapEntry) =
              ⟨eT.task, eU.runOrder - 1, eT.waitOrder⟩ := by
            cases e'
            simp_all
          rw [this]
        · have h2 : tKey ∈ ks := by
            rcases List.mem_cons.mp htm with h | h
            · exact absurd h hkt
            · exact h
          exact htin h2
      · intro htm
        have hkt : tKey ≠ k := fun h => htm (by simp [h])
        have h2 : tKey ∉ ks := fun h => htm (by simp [h])
        rw [htout h2, jsObjSet_lookup_other hkt]

lemma planInsert_mem {a x : PlanStep} {l : List PlanStep} :
    a ∈ planInsert x l ↔ a = x ∨ a ∈ l := by
  induction l with
  | nil => simp [planInsert]
  | cons y ys ih =>
    by_cases h : x.order < y.order
    · simp [planInsert, h]
    · simp [planInsert, h, ih]
      try tauto

lemma planSort_mem {a : PlanStep} {l : List PlanStep} :
    a ∈ planSort l ↔ a ∈ l := by
  suffices h : ∀ (l acc : List PlanStep),
      a ∈ l.foldl (fun acc x => planInsert x acc) acc ↔ a ∈ acc ∨ a ∈ l by
    simpa [planSort] using h l []
  intro l
  induction l with
  | nil =>
    intro acc
    simp
  | cons x xs ih =>
    intro acc
    rw [List.foldl_cons, ih]
    simp [planInsert_mem]
    tauto

lemma planInsert_sorted {x : PlanStep} {l : List PlanStep}
    (h : l.Sorted fun a b => a.order ≤ b.order) :
    (planInsert x l).Sorted fun a b => a.order ≤ b.order := by
  induction l with
  | nil => simp [planInsert]
  | cons y ys ih =>
    obtain ⟨hy, hys⟩ := List.sorted_cons.mp h
    by_cases hlt : x.order < y.order
    · rw [show planInsert x (y :: ys) = x :: y :: ys from by simp [planInsert, hlt]]
      refine List.sorted_cons.mpr ⟨?_, h⟩
      intro b hb
      rcases List.mem_cons.mp hb with rfl | hb2
      · exact le_of_lt hlt
      · exact le_trans (le_of_lt hlt) (hy b hb2)
    · rw [show planInsert x (y :: ys) = y :: planInsert x ys from by
        simp [planInsert, hlt]]
      refine List.sorted_cons.mpr ⟨?_, ih hys⟩
      intro b hb
      rcases planInsert_mem.mp hb with rfl | hb2
      · exact le_of_not_lt hlt
      · exact hy b hb2

lemma planSort_sorted (l : List PlanStep) :
    (planSort l).Sorted fun a b => a.order ≤ b.order := by
  suffices h : ∀ (l acc : List PlanStep),
      (acc.Sorted fun a b => a.order ≤ b.order) →
      ((l.foldl (fun acc x => planInsert x acc) acc).Sorted
        fun a b => a.order ≤ b.order) by
    exact h l [] (by simp)
  intro l
  induction l with
  | nil =>
    intro acc hacc
    simpa using hacc
  | cons x xs ih =>
    intro acc hacc
    rw [List.foldl_cons]
    exact ih _ (planInsert_sorted hacc)

lemma sorted_get_lt {P : List PlanStep}
    (hs : P.Sorted fun a b => a.order ≤ b.order)
    (i j : Fin P.length) (hij : (P.get i).order < (P.get j).order) :
    (i : Nat) < (j : Nat) := by
  by_contra h
  push_neg at h
  rcases lt_or_eq_of_le h with hji | hji
  · have hj : j < i := hji
    have := List.pairwise_iff_get.mp hs j i hj
    exact absurd hij (not_lt.mpr this)
  · have : j = i := Fin.ext hji
    subst this
    exact lt_irrefl _ hij

lemma steps_mem_buildPlan {m : List (String × MapEntry)} {k : String}
    {e : MapEntry} (h : m.lookup k = some e) :
    ({ runTask := some k, order := e.runOrder } : PlanStep) ∈ buildPlan m ∧
    ({ waitFor := some k, order := e.waitOrder } : PlanStep) ∈ buildPlan m := by
  have hmem := lookup_to_mem h
  constructor <;> exact List.mem_flatMap.mpr ⟨(k, e), hmem, by simp⟩

lemma task_mem_of_mem_enum_map {ts : List RTask} {k0 : Nat}
    {kv : String × MapEntry} (h : kv ∈ (ts.enumFrom k0).map enumMapF) :
    kv.2.task ∈ ts := by
  obtain ⟨it, hit, rfl⟩ := List.mem_map.mp h
  exact snd_mem_of_mem_enumFrom hit

lemma keys_enum_map (ts : List RTask) :
    ∀ k0, (∀ t ∈ ts, ∃ s, t.id = some s ∧ s ≠ "") →
    ((ts.enumFrom k0).map enumMapF).map Prod.fst =
      ts.map fun t => t.id.getD "" := by
  induction ts with
  | nil =>
    intro k0 _
    rfl
  | cons t ts ih =>
    intro k0 hgood
    obtain ⟨s, hid, hs⟩ := hgood t (by simp)
    rw [List.enumFrom_cons]
    simp only [List.map_cons]
    rw [ih (k0 + 1) fun t2 h2 => hgood t2 (by simp [h2])]
    simp [enumMapF, taskKey, hid, hs]

/-- C3 counterexample: with the task list
`[t (runBeforeAsync: u), v, u (runBeforeAsync: v)]` the dependency
resolution gives `t` the STALE order `u.runOrder - 1 = 1999` before `u`
itself is re-ordered to `v.runOrder - 1 = 999`, so in the sorted execution
plan `u`'s run step comes BEFORE `t`'s run step — refuting the claim that a
task always runs before its `runBeforeAsync` target.  (The plan even
schedules `t`'s wait step first.) -/
theorem C3_chained_dependency_cex :
    ((planSort (buildPlan ((resolveDeps (buildTaskMap
        [{ id := some "t", runBeforeAsync := some "u" },
         { id := some "v" },
         { id := some "u", runBeforeAsync := some "v" }])).getD []))).map
      fun st => (st.runTask, st.order)) =
      [(none, 1), (some "u", 999), (some "v", 1000), (none, 1001),
       (some "t", 1999), (none, 2001)] ∧
    (planSort (buildPlan ((resolveDeps (buildTaskMap
        [{ id := some "t", runBeforeAsync := some "u" },
         { id := some "v" },
         { id := some "u", runBeforeAsync := some "v" }])).getD []))).findIdx
      (fun st => st.runTask == some "u") <
    (planSort (buildPlan ((resolveDeps (buildTaskMap
        [{ id := some "t", runBeforeAsync := some "u" },
         { id := some "v" },
         { id := some "u", runBeforeAsync := some "v" }])).getD []))).findIdx
      (fun st => st.runTask == some "t") := by
  exact ⟨rfl, by decide⟩

/-- C3 amended: for every task list with explicit, distinct, non-empty ids
whose `runBeforeAsync` targets all exist, and every task T whose
`runBeforeAsync` names a peer U that itself has NO `runBeforeAsync`
(single-level dependency — the chained case is refuted by the
counterexample and its semantics are undefined per spec §9), dependency
resolution gives T the run order `iU*1000 - 1` while U keeps `iU*1000`, so
in the sorted execution plan T's run step is strictly before U's run step
(the coordinator executes the plan sequentially and awaits T's ready latch
during T's run step); T's wait step remains scheduled at its own
`waitOrder = iT*1000 + 1`. -/
theorem C3_runBeforeAsync_amended
    (ts : List RTask) (iT iU : Nat) (T U : RTask) (tKey uKey : String)
    (hT : ts.get? iT = some T) (hU : ts.get? iU = some U)
    (hTid : T.id = some tKey) (hUid : U.id = some uKey)
    (hTrba : T.runBeforeAsync = some uKey) (hUrba : U.runBeforeAsync = none)
    (hgood : ∀ t ∈ ts, ∃ s, t.id = some s ∧ s ≠ "")
    (hnodup : (ts.map RTask.id).Nodup)
    (hclosedT : ∀ t ∈ ts, ∀ r, t.runBeforeAsync = some r →
      ∃ t2 ∈ ts, t2.id = some r) :
    ∃ m, resolveDeps (buildTaskMap ts) = some m ∧
      m.lookup tKey = some ⟨T, (iU : Int) * 1000 - 1, (iT : Int) * 1000 + 1⟩ ∧
      m.lookup uKey = some ⟨U, (iU : Int) * 1000, (iU : Int) * 1000 + 1⟩ ∧
      ({ runTask := some tKey, order := (iU : Int) * 1000 - 1 } : PlanStep) ∈
        planSort (buildPlan m) ∧
      ({ runTask := some uKey, order := (iU : Int) * 1000 } : PlanStep) ∈
        planSort (buildPlan m) ∧
      ({ waitFor := some tKey, order := (iT : Int) * 1000 + 1 } : PlanStep) ∈
        planSort (buildPlan m) ∧
      ∀ (i j : Fin (planSort (buildPlan m)).length),
        (planSort (buildPlan m)).get i =
          { runTask := some tKey, order := (iU : Int) * 1000 - 1 } →
        (planSort (buildPlan m)).get j =
          { runTask := some uKey, order := (iU : Int) * 1000 } →
        (i : Nat) < (j : Nat) := by
  have htk_ne : tKey ≠ "" := by
    obtain ⟨s, hid, hs⟩ := hgood T (List.mem_iff_get?.mpr ⟨iT, hT⟩)
    rw [hTid] at hid
    rw [Option.some.inj hid]
    exact hs
  have huk_ne : uKey ≠ "" := by
    obtain ⟨s, hid, hs⟩ := hgood U (List.mem_iff_get?.mpr ⟨iU, hU⟩)
    rw [hUid] at hid
    rw [Option.some.inj hid]
    exact hs
  have hmapeq : buildTaskMap ts = (ts.enumFrom 0).map enumMapF := by
    unfold buildTaskMap
    rw [buildTaskMapAux_eq ts 0 [] hgood (fun _ _ _ _ => rfl) hnodup]
    rfl
  have hT0 : ((ts.enumFrom 0).map enumMapF).lookup tKey =
      some ⟨T, (iT : Int) * 1000, (iT : Int) * 1000 + 1⟩ := by
    have h := lookup_enumFrom_map ts 0 iT T tKey hT hTid htk_ne hgood hnodup
    simpa using h
  have hU0 : ((ts.enumFrom 0).map enumMapF).lookup uKey =
      some ⟨U, (iU : Int) * 1000, (iU : Int) * 1000 + 1⟩ := by
    have h := lookup_enumFrom_map ts 0 iU U uKey hU hUid huk_ne hgood hnodup
    simpa using h
  have hclosed : ∀ k e, ((ts.enumFrom 0).map enumMapF).lookup k = some e →
      ∀ r, e.task.runBeforeAsync = some r →
      r ∈ ((ts.enumFrom 0).map enumMapF).map Prod.fst := by
    intro k e hlk r hr
    have htmem : e.task ∈ ts :=
      task_mem_of_mem_enum_map (lookup_to_mem hlk)
    obtain ⟨t2, ht2mem, ht2id⟩ := hclosedT e.task htmem r hr
    obtain ⟨i2, hget2⟩ := List.mem_iff_get?.mp ht2mem
    have hr_ne : r ≠ "" := by
      obtain ⟨s2, hid2, hs2⟩ := hgood t2 ht2mem
      rw [ht2id] at hid2
      rw [Option.some.inj hid2]
      exact hs2
    have hlk2 := lookup_enumFrom_map ts 0 i2 t2 r hget2 ht2id hr_ne hgood hnodup
    simpa using List.mem_map_of_mem Prod.fst (lookup_to_mem hlk2)
  have hknodup : (((ts.enumFrom 0).map enumMapF).map Prod.fst).Nodup := by
    rw [keys_enum_map ts 0 hgood]
    have heq : (ts.map fun t => t.id.getD "") =
        (ts.map RTask.id).map fun o => o.getD "" := by
      rw [List.map_map]
      rfl
    rw [heq]
    refine List.Nodup.map_on ?_ hnodup
    intro x hx y hy hxy
    obtain ⟨tx, htxm, htx⟩ := List.mem_map.mp hx
    obtain ⟨ty, htym, hty⟩ := List.mem_map.mp hy
    obtain ⟨sx, hsx, _⟩ := hgood tx htxm
    obtain ⟨sy, hsy, _⟩ := hgood ty htym
    rw [← htx, ← hty, hsx, hsy] at hxy ⊢
    simpa using hxy
  obtain ⟨mf, hfold, hkf, hpf, hUf, htin, _⟩ :=
    resolveDeps_fold ((ts.enumFrom 0).map enumMapF) uKey tKey
      ⟨U, (iU : Int) * 1000, (iU : Int) * 1000 + 1⟩
      ⟨T, (iT : Int) * 1000, (iT : Int) * 1000 + 1⟩
      hTrba hUrba hT0 hclosed
      (((ts.enumFrom 0).map enumMapF).map Prod.fst)
      ((ts.enumFrom 0).map enumMapF)
      hknodup (fun k hk => hk) rfl (fun k e0 h => ⟨e0, h, rfl, rfl⟩) hU0
  have htKeyMem : tKey ∈ ((ts.enumFrom 0).map enumMapF).map Prod.fst := by
    simpa using List.mem_map_of_mem Prod.fst (lookup_to_mem hT0)
  have hmf_t : mf.lookup tKey =
      some ⟨T, (iU : Int) * 1000 - 1, (iT : Int) * 1000 + 1⟩ := htin htKeyMem
  have hres : resolveDeps (buildTaskMap ts) = some mf := by
    unfold resolveDeps
    rw [hmapeq]
    exact hfold
  obtain ⟨hrunT, hwaitT⟩ := steps_mem_buildPlan hmf_t
  obtain ⟨hrunU, _⟩ := steps_mem_buildPlan hUf
  refine ⟨mf, hres, hmf_t, hUf, planSort_mem.mpr hrunT, planSort_mem.mpr hrunU,
    planSort_mem.mpr hwaitT, ?_⟩
  intro i j hi hj
  apply sorted_get_lt (planSort_sorted (buildPlan mf)) i j
  rw [hi, hj]
  show (iU : Int) * 1000 - 1 < (iU : Int) * 1000
  omega

/-- C3 witness: in the two-task list `[t (runBeforeAsync: u), u]` the
resolved map gives `t` run order 999 and `u` keeps 1000, both run steps and
`t`'s wait step (order 1) are in the plan, and every position of `t`'s run
step precedes every position of `u`'s run step. -/
theorem C3_runBeforeAsync_amended_witness :
    ∃ m, resolveDeps (buildTaskMap
      [{ id := some "t", runBeforeAsync := some "u" },
       ({ id := some "u" } : RTask)]) = some m ∧
      m.lookup "t" = some ⟨{ id := some "t", runBeforeAsync := some "u" },
        ((1 : Nat) : Int) * 1000 - 1, ((0 : Nat) : Int) * 1000 + 1⟩ ∧
      m.lookup "u" = some ⟨({ id := some "u" } : RTask),
        ((1 : Nat) : Int) * 1000, ((1 : Nat) : Int) * 1000 + 1⟩ ∧
      ({ runTask := some "t", order := ((1 : Nat) : Int) * 1000 - 1 } : PlanStep) ∈
        planSort (buildPlan m) ∧
      ({ runTask := some "u", order := ((1 : Nat) : Int) * 1000 } : PlanStep) ∈
        planSort (buildPlan m) ∧
      ({ waitFor := some "t", order := ((0 : Nat) : Int) * 1000 + 1 } : PlanStep) ∈
        planSort (buildPlan m) ∧
      ∀ (i j : Fin (planSort (buildPlan m)).length),
        (planSort (buildPlan m)).get i =
          { runTask := some "t", order := ((1 : Nat) : Int) * 1000 - 1 } →
        (planSort (buildPlan m)).get j =
          { runTask := some "u", order := ((1 : Nat) : Int) * 1000 } →
        (i : Nat) < (j : Nat) := by
  refine C3_runBeforeAsync_amended
    [{ id := some "t", runBeforeAsync := some "u" }, ({ id := some "u" } : RTask)]
    0 1 { id := some "t", runBeforeAsync := some "u" } { id := some "u" }
    "t" "u" rfl rfl rfl rfl rfl rfl ?_ (by decide) ?_
  · intro t ht
    rcases List.mem_cons.mp ht with rfl | ht2
    · exact ⟨"t", rfl, by decide⟩
    · rcases List.mem_cons.mp ht2 with rfl | ht3
      · exact ⟨"u", rfl, by decide⟩
      · simp at ht3
  · intro t ht r hr
    rcases List.mem_cons.mp ht with rfl | ht2
    · refine ⟨{ id := some "u" }, by simp, ?_⟩
      rw [show ({ id := some "t", runBeforeAsync := some "u" } :
        RTask).runBeforeAsync = some "u" from rfl] at hr
      exact hr
    · rcases List.mem_cons.mp ht2 with rfl | ht3
      · rw [show ({ id := some "u" } : RTask).runBeforeAsync = none from rfl] at hr
        exact absurd hr (by simp)
      · simp at ht3
